import Mathlib

/-!
Verification of the d-ary heap (`dway_heap.py`) and the Huffman encoder
(`huffman.py`) from the repository, as a shallow embedding: the heap state is
the backing list of (priority, element) pairs, Python float priorities are
modelled by the totally ordered `Int`, exceptions by `Option`, and the two
`while` loops by fuelled recursion (the fuel bounds are proved sufficient).
-/

set_option maxHeartbeats 1000000

namespace DHeap

variable {α : Type} [Inhabited α]

/-- `DWayHeap._first_child_index`: index of the left-most child of `index`. -/
def first_child_index (D index : Nat) : Nat := index * D + 1

/-- `DWayHeap._parent_index`: Python computes `(index - 1) // D`; every call
site has `index > 0`, where Nat subtraction and division agree with Python
floor division. -/
def parent_index (D index : Nat) : Nat := (index - 1) / D

/-- `DWayHeap.first_leaf_index`: Python evaluates `(n - 2) // D + 1` with floor
division, which is `-1 + 1 = 0` for `n ≤ 1` (negative numerator) and agrees
with Nat division for `n ≥ 2`. -/
def first_leaf_index (n D : Nat) : Nat := if n ≤ 1 then 0 else (n - 2) / D + 1

/-- Priority stored at slot `i` of the backing array. -/
def prioAt (ps : List (Int × α)) (i : Nat) : Int := (ps.getD i default).1

/-- The scan inside `DWayHeap._highest_priority_child_index`: walk the child
slots left to right keeping the best index and best priority so far; `none`
plays the role of the initial `highest_priority = -float('inf')` (every stored
priority compares strictly above it, exactly as every finite float compares
strictly above `-inf`), and only a strictly greater priority replaces the
current best, so the left-most child wins ties. -/
def hpcAux (ps : List (Int × α)) : List Nat → Nat × Option Int → Nat × Option Int
  | [], best => best
  | i :: is, (bi, bp) =>
    match bp with
    | none => hpcAux ps is (i, some (prioAt ps i))
    | some h =>
      if h < prioAt ps i then hpcAux ps is (i, some (prioAt ps i))
      else hpcAux ps is (bi, bp)

/-- `DWayHeap._highest_priority_child_index`: the child of `index` holding the
highest priority (left-most under ties), `none` when `index` has no child.
Python's locals `first_index`, `size`, `last_index` are inlined:
`last_index = min(first_index + D, size)`, and the scan runs over
`range(first_index, last_index)`. -/
def highest_priority_child_index (ps : List (Int × α)) (D index : Nat) :
    Option Nat :=
  if ps.length ≤ first_child_index D index then none
  else some (hpcAux ps
    (List.range' (first_child_index D index)
      (min (first_child_index D index + D) ps.length - first_child_index D index))
    (first_child_index D index, none)).1

/-- The `while` loop of `DWayHeap._push_down`, with explicit fuel: `ip` is the
priority of the saved `input_pair`, `firstLeaf` the value `first_leaf_index`
computed before the loop.  Returns the array after the slides together with the
slot where the saved pair is finally written back. -/
def push_down_loop (D : Nat) (ip : Int) (firstLeaf : Nat) :
    Nat → List (Int × α) → Nat → List (Int × α) × Nat
  | 0, ps, cur => (ps, cur)
  | fuel + 1, ps, cur =>
    if cur < firstLeaf then
      match highest_priority_child_index ps D cur with
      | none => (ps, cur)
      | some child =>
        if ip < prioAt ps child then
          push_down_loop D ip firstLeaf fuel (ps.set cur (ps.getD child default)) child
        else (ps, cur)
    else (ps, cur)

/-- `DWayHeap._push_down`: save `pairs[index]`, repeatedly slide the
highest-priority child up while it beats the saved priority, then store the
saved pair at the last slot reached.  Fuel `ps.length` suffices because the
current slot strictly increases and stays below `first_leaf_index ≤ ps.length`. -/
def push_down (D : Nat) (ps : List (Int × α)) (index : Nat) : List (Int × α) :=
  let input := ps.getD index default
  let r := push_down_loop D input.1 (first_leaf_index ps.length D) ps.length ps index
  r.1.set r.2 input

/-- The `while` loop of `DWayHeap._bubble_up`, with explicit fuel. -/
def bubble_up_loop (D : Nat) (ip : Int) :
    Nat → List (Int × α) → Nat → List (Int × α) × Nat
  | 0, ps, index => (ps, index)
  | fuel + 1, ps, index =>
    if 0 < index then
      let pidx := parent_index D index
      let parent := ps.getD pidx default
      if parent.1 < ip then
        bubble_up_loop D ip fuel (ps.set index parent) pidx
      else (ps, index)
    else (ps, index)

/-- `DWayHeap._bubble_up`: save `pairs[index]`, slide each parent down while its
priority is beaten by the saved one, then store the saved pair at the last slot
reached.  Fuel `ps.length` suffices because the index strictly decreases. -/
def bubble_up (D : Nat) (ps : List (Int × α)) (index : Nat) : List (Int × α) :=
  let input := ps.getD index default
  let r := bubble_up_loop D input.1 ps.length ps index
  r.1.set r.2 input

/-- `DWayHeap.insert`: append the new pair, then bubble it up. -/
def insert (D : Nat) (ps : List (Int × α)) (element : α) (priority : Int) :
    List (Int × α) :=
  let qs := ps ++ [(priority, element)]
  bubble_up D qs (qs.length - 1)

/-- `DWayHeap._heapify` (and hence the constructor): zip priorities with
elements, then push down every internal node from `first_leaf_index - 1` down
to the root.  The constructor with empty input leaves `_pairs = []`, which this
definition also yields. -/
def heapify (D : Nat) (elements : List α) (priorities : List Int) :
    List (Int × α) :=
  let ps := priorities.zip elements
  (List.range (first_leaf_index ps.length D)).reverse.foldl
    (fun qs i => push_down D qs i) ps

/-- `DWayHeap.top` as a state transition: the raised `RuntimeError` on an empty
heap becomes result `none` with the state untouched; a singleton heap pops its
only pair; otherwise the root element is returned, the popped last pair is
written into slot 0 and pushed down. -/
def top (D : Nat) (ps : List (Int × α)) : Option α × List (Int × α) :=
  if ps.length = 0 then (none, ps)
  else if ps.length = 1 then (some (ps.getD 0 default).2, [])
  else
    let element := (ps.getD 0 default).2
    let qs := ps.dropLast.set 0 (ps.getLastD default)
    (some element, push_down D qs 0)

/-- `DWayHeap.peek`: the root element, `none` (raised `RuntimeError`) when
empty. -/
def peek (ps : List (Int × α)) : Option α :=
  if ps.length = 0 then none else some ((ps.getD 0 default).2)

/-- `peek` as a state transition: the method body only reads `_pairs[0]` and
performs no assignment, so the state component is the input state. -/
def peekSt (ps : List (Int × α)) : Option α × List (Int × α) := (peek ps, ps)

/-- The max-heap order invariant (invariant 3 of `DWayHeap._validate`, spec §3
invariant 2): every node's priority is ≥ the priority of each of its up-to-`D`
direct children. -/
def IsHeap (D : Nat) (ps : List (Int × α)) : Prop :=
  ∀ i j, j < ps.length → first_child_index D i ≤ j →
    j < first_child_index D i + D → prioAt ps j ≤ prioAt ps i

/-- The order invariant restricted to the child slots whose parent slot is
`≥ i0` (the region already processed by `_heapify`); `HeapBelow D ps 0` is the
full invariant in parent form. -/
def HeapBelow (D : Nat) (ps : List (Int × α)) (i0 : Nat) : Prop :=
  ∀ j, 0 < j → j < ps.length → i0 ≤ parent_index D j →
    prioAt ps j ≤ prioAt ps (parent_index D j)

/-- Extraction sequence: the elements returned by repeated `top` calls. -/
def extract_list (D : Nat) : Nat → List (Int × α) → List α
  | 0, _ => []
  | fuel + 1, ps =>
    match top D ps with
    | (none, _) => []
    | (some e, qs) => e :: extract_list D fuel qs

/-- Extraction trace: the root pair read before each successful `top` call
(`top` returns exactly the element component of this pair). -/
def extract_trace (D : Nat) : Nat → List (Int × α) → List (Int × α)
  | 0, _ => []
  | fuel + 1, ps =>
    if ps.length = 0 then []
    else ps.getD 0 default :: extract_trace D fuel (top D ps).2

/-- A mixed workload operation: `insert` with a pair, or `extract_max`. -/
inductive HeapOp (α : Type) where
  | ins : α → Int → HeapOp α
  | ext : HeapOp α

/-- State transition of one operation; a failed `extract_max` on the empty heap
leaves the state unchanged (`top` raises before mutating). -/
def apply_op (D : Nat) (ps : List (Int × α)) : HeapOp α → List (Int × α)
  | .ins e p => insert D ps e p
  | .ext => (top D ps).2

/-- State after a sequence of operations. -/
def apply_ops (D : Nat) (ps : List (Int × α)) (ops : List (HeapOp α)) :
    List (Int × α) :=
  ops.foldl (apply_op D) ps

/-- `DWayHeap._validate`: full linear scan checking every internal node against
each of its direct children. -/
def validate (D : Nat) (ps : List (Int × α)) : Bool :=
  (List.range (first_leaf_index ps.length D)).all fun current =>
    (List.range' (first_child_index D current)
        (min (first_child_index D current + D) ps.length -
          first_child_index D current)).all
      fun child => decide (prioAt ps child ≤ prioAt ps current)

/-- `n` sequential `insert` calls starting from the empty heap, one per
element/priority pair. -/
def insert_seq (D : Nat) (elements : List α) (priorities : List Int) :
    List (Int × α) :=
  (elements.zip priorities).foldl (fun qs ep => insert D qs ep.1 ep.2) []

end DHeap

namespace Huffman

open DHeap

/-- `HuffmanNode.__init__`: symbols covered by the subtree (Python stores the
string of covered characters), the node priority, and the optional children.
The code only ever creates nodes with both children present or both absent. -/
inductive HuffmanNode : Type where
  | mk : List Char → Int → Option HuffmanNode → Option HuffmanNode → HuffmanNode

/-- `HuffmanNode.symbols`. -/
def HuffmanNode.symbols : HuffmanNode → List Char
  | .mk s _ _ _ => s

/-- `HuffmanNode.priority`. -/
def HuffmanNode.priority : HuffmanNode → Int
  | .mk _ p _ _ => p

instance : Inhabited HuffmanNode := ⟨.mk [] 0 none none⟩

/-- `HuffmanNode.encode_left_path`: prepend a `'0'` bit. -/
def encode_left_path (p : List Char) : List Char := '0' :: p

/-- `HuffmanNode.encode_right_path`: prepend a `'1'` bit. -/
def encode_right_path (p : List Char) : List Char := '1' :: p

/-- Python dict assignment `table[k] = v` on an association list that carries
no duplicate keys (a dict in insertion order): overwrite in place when the key
is present, append otherwise. -/
def dictSet (tbl : List (Char × List Char)) (k : Char) (v : List Char) :
    List (Char × List Char) :=
  if tbl.any (fun kv => kv.1 == k) then
    tbl.map (fun kv => if kv.1 == k then (k, v) else kv)
  else tbl ++ [(k, v)]

/-- `HuffmanNode.tree_encoding`: recursively collect the children's tables,
copy the left entries with a `'0'` prefix and then the right entries with a
`'1'` prefix into a fresh dict, and finally map a single covered symbol to the
empty path. -/
def HuffmanNode.tree_encoding : HuffmanNode → List (Char × List Char)
  | .mk syms _ l r =>
    let left_table := match l with
      | none => []
      | some t => t.tree_encoding
    let right_table := match r with
      | none => []
      | some t => t.tree_encoding
    let t1 := left_table.foldl
      (fun acc kv => dictSet acc kv.1 (encode_left_path kv.2)) []
    let t2 := right_table.foldl
      (fun acc kv => dictSet acc kv.1 (encode_right_path kv.2)) t1
    if syms.length = 1 then dictSet t2 (syms.getD 0 default) [] else t2

/-- `collections.Counter(text)`: tally one character, keeping first-occurrence
(insertion) order of the keys. -/
def counterAdd (acc : List (Char × Int)) (c : Char) : List (Char × Int) :=
  if acc.any (fun kv => kv.1 == c) then
    acc.map (fun kv => if kv.1 == c then (kv.1, kv.2 + 1) else kv)
  else acc ++ [(c, 1)]

/-- `_create_frequency_table`: char / number-of-occurrences pairs. -/
def create_frequency_table (text : List Char) : List (Char × Int) :=
  text.foldl counterAdd []

/-- `_frequency_table_to_heap`: one leaf `HuffmanNode` per table entry, keyed
by the negated frequency, loaded through the `DWayHeap` constructor
(`heapify`).  On an empty table Python raises a `ValueError` while unpacking
`list(zip(*ft.items()))` into two names, before any node or heap is created:
modelled as `none`. -/
def frequency_table_to_heap (ft : List (Char × Int)) (branching_factor : Nat) :
    Option (List (Int × HuffmanNode)) :=
  if ft.isEmpty then none
  else some (heapify branching_factor
    (ft.map fun kv => HuffmanNode.mk [kv.1] (-kv.2) none none)
    (ft.map fun kv => -kv.2))

/-- The `while len(heap) > 1` loop of `_heap_to_tree`, with explicit fuel:
extract `right` then `left`, merge them into an internal node whose priority is
the sum, and insert it back keyed by that priority.  Each iteration shrinks the
heap by one pair, so fuel `ps.length` suffices. -/
def heap_to_tree_loop (D : Nat) :
    Nat → List (Int × HuffmanNode) → List (Int × HuffmanNode)
  | 0, ps => ps
  | fuel + 1, ps =>
    if 1 < ps.length then
      let t1 := top D ps
      let right := t1.1.getD default
      let t2 := top D t1.2
      let left := t2.1.getD default
      let syms := left.symbols ++ right.symbols
      let prio := left.priority + right.priority
      heap_to_tree_loop D fuel
        (insert D t2.2 (HuffmanNode.mk syms prio (some left) (some right)) prio)
    else ps

/-- `_heap_to_tree`: run the merge loop, then `top` the single remaining node
(`none` when the heap was empty, where Python's final `top` raises). -/
def heap_to_tree (D : Nat) (ps : List (Int × HuffmanNode)) :
    Option HuffmanNode :=
  (top D (heap_to_tree_loop D ps.length ps)).1

/-- `create_encoding`: frequency table, heap, tree, code table. -/
def create_encoding (text : List Char) (branching_factor : Nat) :
    Option (List (Char × List Char)) :=
  match frequency_table_to_heap (create_frequency_table text) branching_factor with
  | none => none
  | some h => (heap_to_tree branching_factor h).map HuffmanNode.tree_encoding

/-- The fixed frequency table of spec §8. -/
def exampleFT : List (Char × Int) :=
  [('a', 57), ('b', 22), ('c', 7), ('d', 6), ('e', 5), ('f', 3)]

/-- The code table the encoder produces from a frequency table (`none` when the
table is empty). -/
def encode_table (ft : List (Char × Int)) (D : Nat) :
    Option (List (Char × List Char)) :=
  match frequency_table_to_heap ft D with
  | none => none
  | some h => (heap_to_tree D h).map HuffmanNode.tree_encoding

/-- The shape the program actually builds (§3 `HuffmanNode` invariants): a leaf
covers exactly one symbol and has no children; an internal node has both
children and covers the concatenation of their symbols. -/
inductive WF : HuffmanNode → Prop where
  | leaf (c : Char) (p : Int) : WF (.mk [c] p none none)
  | node (l r : HuffmanNode) (p : Int) : WF l → WF r →
      WF (.mk (l.symbols ++ r.symbols) p (some l) (some r))

/-- Invariant of the merge loop's heap: every stored node is well formed and
the symbols covered by the stored nodes are globally distinct. -/
def GoodHeap (ps : List (Int × HuffmanNode)) : Prop :=
  (∀ pr ∈ ps, WF pr.2) ∧ ((ps.map fun pr => pr.2.symbols).flatten).Nodup

/-- A code table is prefix-free when the paths of two distinct symbols are
never one a prefix of the other. -/
def PrefixFreeTable (tbl : List (Char × List Char)) : Prop :=
  ∀ kv1 ∈ tbl, ∀ kv2 ∈ tbl, kv1.1 ≠ kv2.1 → ¬ kv1.2 <+: kv2.2

end Huffman

/-! ## Basic list-access lemmas -/

namespace DHeap

variable {α : Type} [Inhabited α]

lemma getD_set_self {β : Type} (l : List β) (i : Nat) (v d : β)
    (hi : i < l.length) : (l.set i v).getD i d = v := by
  rw [List.getD_eq_getElem?_getD, List.getElem?_set_self hi]
  rfl

lemma getD_set_ne {β : Type} (l : List β) (i j : Nat) (v d : β)
    (hij : i ≠ j) : (l.set i v).getD j d = l.getD j d := by
  rw [List.getD_eq_getElem?_getD, List.getElem?_set_ne hij,
    List.getD_eq_getElem?_getD]

lemma prioAt_set_self (ps : List (Int × α)) (i : Nat) (v : Int × α)
    (hi : i < ps.length) : prioAt (ps.set i v) i = v.1 := by
  unfold prioAt
  rw [getD_set_self _ _ _ _ hi]

lemma prioAt_set_ne (ps : List (Int × α)) (i j : Nat) (v : Int × α)
    (hij : i ≠ j) : prioAt (ps.set i v) j = prioAt ps j := by
  unfold prioAt
  rw [getD_set_ne _ _ _ _ _ hij]

lemma set_getD_self {β : Type} (l : List β) (i : Nat) (d : β)
    (hi : i < l.length) : l.set i (l.getD i d) = l := by
  induction l generalizing i with
  | nil => simp at hi
  | cons x t ih =>
    cases i with
    | zero => simp [List.set]
    | succ k =>
      simp only [List.set, List.getD_cons_succ]
      rw [ih k (by simpa using hi)]

lemma getD_cons_set_perm {β : Type} (t : List β) (k : Nat) (x d : β)
    (hk : k < t.length) : (t.getD k d :: t.set k x).Perm (x :: t) := by
  induction t generalizing k with
  | nil => simp at hk
  | cons y s ih =>
    cases k with
    | zero => simpa using List.Perm.swap x y s
    | succ m =>
      have hm : m < s.length := by simpa using hk
      simp only [List.set, List.getD_cons_succ]
      have s1 : (s.getD m d :: y :: s.set m x).Perm (y :: s.getD m d :: s.set m x) :=
        List.Perm.swap y (s.getD m d) (s.set m x)
      have s2 : (y :: s.getD m d :: s.set m x).Perm (y :: x :: s) := (ih m hm).cons y
      have s3 : (y :: x :: s).Perm (x :: y :: s) := List.Perm.swap x y s
      exact (s1.trans s2).trans s3

/-- Writing `l[j]` at slot `i` and then a value `x` at slot `j` permutes the
list obtained by writing `x` at slot `i` directly. -/
lemma set_swap_perm {β : Type} (l : List β) (i j : Nat) (x d : β)
    (hi : i < l.length) (hj : j < l.length) (hij : i ≠ j) :
    ((l.set i (l.getD j d)).set j x).Perm (l.set i x) := by
  induction l generalizing i j with
  | nil => simp at hi
  | cons y t ih =>
    cases i with
    | zero =>
      cases j with
      | zero => exact absurd rfl hij
      | succ m =>
        have hm : m < t.length := by simpa using hj
        simp only [List.set, List.getD_cons_succ, List.getD_cons_zero]
        exact getD_cons_set_perm t m x d hm
    | succ k =>
      cases j with
      | zero =>
        have hk : k < t.length := by simpa using hi
        simp only [List.set, List.getD_cons_succ, List.getD_cons_zero]
        have P1 : (t.getD k d :: t.set k y).Perm (y :: t) :=
          getD_cons_set_perm t k y d hk
        have P2 : (t.getD k d :: t.set k x).Perm (x :: t) :=
          getD_cons_set_perm t k x d hk
        have s1 : (t.getD k d :: x :: t.set k y).Perm
            (x :: t.getD k d :: t.set k y) := List.Perm.swap x (t.getD k d) _
        have s2 : (x :: t.getD k d :: t.set k y).Perm (x :: y :: t) := P1.cons x
        have s3 : (x :: y :: t).Perm (y :: x :: t) := List.Perm.swap y x t
        have s4 : (y :: x :: t).Perm (y :: t.getD k d :: t.set k x) :=
          (P2.cons y).symm
        have s5 : (y :: t.getD k d :: t.set k x).Perm
            (t.getD k d :: y :: t.set k x) := List.Perm.swap (t.getD k d) y _
        exact ((((s1.trans s2).trans s3).trans s4).trans s5).cons_inv
      | succ m =>
        have hk : k < t.length := by simpa using hi
        have hm : m < t.length := by simpa using hj
        simp only [List.set, List.getD_cons_succ]
        exact (ih k m hk hm (by omega)).cons y

/-! ## Index arithmetic: parent / child / first leaf -/

lemma parent_index_spec (D j : Nat) (hD : 1 ≤ D) (hj : 0 < j) :
    first_child_index D (parent_index D j) ≤ j ∧
      j < first_child_index D (parent_index D j) + D := by
  unfold first_child_index parent_index
  have hmod : (j - 1) / D * D + (j - 1) % D = j - 1 := Nat.div_add_mod' (j - 1) D
  have hlt : (j - 1) % D < D := Nat.mod_lt _ (by omega)
  omega

lemma parent_index_eq (D i j : Nat) (hD : 1 ≤ D)
    (h1 : first_child_index D i ≤ j) (h2 : j < first_child_index D i + D) :
    parent_index D j = i := by
  unfold first_child_index at h1 h2
  unfold parent_index
  have hji : j - 1 = j - 1 - i * D + i * D := by omega
  rw [hji, Nat.add_mul_div_right _ _ (by omega : 0 < D)]
  have : (j - 1 - i * D) / D = 0 := Nat.div_eq_of_lt (by omega)
  omega

lemma parent_index_lt (D j : Nat) (hD : 1 ≤ D) (hj : 0 < j) :
    parent_index D j < j := by
  unfold parent_index
  have := Nat.div_le_self (j - 1) D
  omega

lemma lt_first_child_index (D i : Nat) (hD : 1 ≤ D) :
    i < first_child_index D i := by
  unfold first_child_index
  have := Nat.le_mul_of_pos_right i (by omega : 0 < D)
  omega

lemma lt_first_leaf_iff (D n cur : Nat) (hD : 1 ≤ D) :
    cur < first_leaf_index n D ↔ first_child_index D cur < n := by
  unfold first_leaf_index first_child_index
  by_cases hn : n ≤ 1
  · simp only [if_pos hn]
    omega
  · simp only [if_neg hn]
    constructor
    · intro h
      have hle : cur ≤ (n - 2) / D := by omega
      have h1 : cur * D ≤ (n - 2) / D * D := mul_le_mul_right' hle D
      have h2 : (n - 2) / D * D ≤ n - 2 := Nat.div_mul_le_self (n - 2) D
      omega
    · intro h
      have hle : cur * D ≤ n - 2 := by omega
      have : cur ≤ (n - 2) / D := (Nat.le_div_iff_mul_le (by omega)).mpr hle
      omega

/-! ## Heap-invariant reformulations -/

lemma isHeap_iff_parent (D : Nat) (ps : List (Int × α)) (hD : 1 ≤ D) :
    IsHeap D ps ↔ ∀ j, 0 < j → j < ps.length →
      prioAt ps j ≤ prioAt ps (parent_index D j) := by
  constructor
  · intro h j hj hjlen
    obtain ⟨h1, h2⟩ := parent_index_spec D j hD hj
    exact h (parent_index D j) j hjlen h1 h2
  · intro h i j hjlen h1 h2
    have hj : 0 < j := by
      have := lt_first_child_index D i hD
      omega
    have hpe := parent_index_eq D i j hD h1 h2
    have hle := h j hj hjlen
    rw [hpe] at hle
    exact hle

lemma heapBelow_zero_iff (D : Nat) (ps : List (Int × α)) (hD : 1 ≤ D) :
    HeapBelow D ps 0 ↔ IsHeap D ps := by
  rw [isHeap_iff_parent D ps hD]
  unfold HeapBelow
  constructor
  · intro h j hj hjlen
    exact h j hj hjlen (Nat.zero_le _)
  · intro h j hj hjlen _
    exact h j hj hjlen

lemma heapBelow_of_ge (D : Nat) (ps : List (Int × α)) (i0 i1 : Nat)
    (h01 : i0 ≤ i1) (h : HeapBelow D ps i0) : HeapBelow D ps i1 :=
  fun j hj hjlen hpa => h j hj hjlen (le_trans h01 hpa)

/-! ## The highest-priority-child scan -/

lemma hpcAux_spec (ps : List (Int × α)) :
    ∀ (is : List Nat) (bi : Nat),
    ∃ j pre post,
      hpcAux ps is (bi, some (prioAt ps bi)) = (j, some (prioAt ps j)) ∧
      bi :: is = pre ++ j :: post ∧
      (∀ k ∈ pre, prioAt ps k < prioAt ps j) ∧
      (∀ k ∈ post, prioAt ps k ≤ prioAt ps j) := by
  intro is
  induction is with
  | nil =>
    intro bi
    exact ⟨bi, [], [], rfl, rfl, by simp, by simp⟩
  | cons i is ih =>
    intro bi
    by_cases h : prioAt ps bi < prioAt ps i
    · obtain ⟨j, pre, post, heq, hdec, hpre, hpost⟩ := ih i
      refine ⟨j, bi :: pre, post, ?_, ?_, ?_, hpost⟩
      · simpa [hpcAux, if_pos h] using heq
      · simpa using hdec
      · intro k hk
        rcases List.mem_cons.mp hk with hk | hk
        · subst hk
          have hij : prioAt ps i ≤ prioAt ps j := by
            have hmem : i ∈ pre ++ j :: post := by
              rw [← hdec]; exact List.mem_cons_self i is
            rcases List.mem_append.mp hmem with hm | hm
            · exact le_of_lt (hpre i hm)
            · rcases List.mem_cons.mp hm with hm | hm
              · rw [hm]
              · exact hpost i hm
          exact lt_of_lt_of_le h hij
        · exact hpre k hk
    · obtain ⟨j, pre, post, heq, hdec, hpre, hpost⟩ := ih bi
      cases pre with
      | nil =>
        simp only [List.nil_append, List.cons.injEq] at hdec
        refine ⟨j, [], i :: post, ?_, ?_, by simp, ?_⟩
        · simpa [hpcAux, if_neg h] using heq
        · simp [hdec.1, hdec.2]
        · intro k hk
          rcases List.mem_cons.mp hk with hk | hk
          · subst hk
            rw [← hdec.1]
            exact le_of_not_lt h
          · exact hpost k hk
      | cons b pre' =>
        simp only [List.cons_append, List.cons.injEq] at hdec
        refine ⟨j, bi :: i :: pre', post, ?_, ?_, ?_, hpost⟩
        · simpa [hpcAux, if_neg h] using heq
        · simp [hdec.2]
        · intro k hk
          have hbij : prioAt ps bi < prioAt ps j := by
            rw [hdec.1]
            exact hpre b (List.mem_cons_self b pre')
          rcases List.mem_cons.mp hk with hk | hk
          · subst hk; exact hbij
          · rcases List.mem_cons.mp hk with hk | hk
            · subst hk
              exact lt_of_le_of_lt (le_of_not_lt h) hbij
            · exact hpre k (List.mem_cons_of_mem b hk)

lemma highest_priority_child_index_spec (ps : List (Int × α)) (D i : Nat)
    (hD : 1 ≤ D) (hch : first_child_index D i < ps.length) :
    ∃ c, highest_priority_child_index ps D i = some c ∧
      first_child_index D i ≤ c ∧
      c < min (first_child_index D i + D) ps.length ∧
      (∀ k, first_child_index D i ≤ k →
        k < min (first_child_index D i + D) ps.length → prioAt ps k ≤ prioAt ps c) ∧
      (∀ k, first_child_index D i ≤ k → k < c → prioAt ps k < prioAt ps c) := by
  have hfl : first_child_index D i < first_child_index D i + D := by omega
  have hcnt : min (first_child_index D i + D) ps.length - first_child_index D i =
      (min (first_child_index D i + D) ps.length - first_child_index D i - 1) + 1 := by
    omega
  obtain ⟨j, pre, post, heq, hdec, hpre, hpost⟩ :=
    hpcAux_spec ps
      (List.range' (first_child_index D i + 1)
        (min (first_child_index D i + D) ps.length - first_child_index D i - 1))
      (first_child_index D i)
  have hrange : List.range' (first_child_index D i)
      (min (first_child_index D i + D) ps.length - first_child_index D i) =
      first_child_index D i :: List.range' (first_child_index D i + 1)
        (min (first_child_index D i + D) ps.length - first_child_index D i - 1) := by
    rw [hcnt]
    rfl
  have hval : highest_priority_child_index ps D i = some j := by
    unfold highest_priority_child_index
    rw [if_neg (by omega), hrange]
    have hstep : hpcAux ps (first_child_index D i :: List.range'
        (first_child_index D i + 1)
        (min (first_child_index D i + D) ps.length - first_child_index D i - 1))
        (first_child_index D i, none) =
        hpcAux ps (List.range' (first_child_index D i + 1)
          (min (first_child_index D i + D) ps.length - first_child_index D i - 1))
        (first_child_index D i, some (prioAt ps (first_child_index D i))) := by
      simp [hpcAux]
    rw [hstep, heq]
  have hdec' : List.range' (first_child_index D i)
      (min (first_child_index D i + D) ps.length - first_child_index D i) =
      pre ++ j :: post := by
    rw [hrange]
    exact hdec
  have hjmem : j ∈ List.range' (first_child_index D i)
      (min (first_child_index D i + D) ps.length - first_child_index D i) := by
    rw [hdec']
    exact List.mem_append.mpr (Or.inr (List.mem_cons_self j post))
  have hjb := List.mem_range'_1.mp hjmem
  have hpair : (List.range' (first_child_index D i)
      (min (first_child_index D i + D) ps.length - first_child_index D i)).Pairwise
      (· < ·) := List.pairwise_lt_range' _ _
  rw [hdec'] at hpair
  have hpairpost := List.pairwise_cons.mp (List.pairwise_append.mp hpair).2.1
  refine ⟨j, hval, hjb.1, by omega, ?_, ?_⟩
  · intro k hk1 hk2
    have hkmem : k ∈ List.range' (first_child_index D i)
        (min (first_child_index D i + D) ps.length - first_child_index D i) :=
      List.mem_range'_1.mpr ⟨hk1, by omega⟩
    rw [hdec'] at hkmem
    rcases List.mem_append.mp hkmem with hm | hm
    · exact le_of_lt (hpre k hm)
    · rcases List.mem_cons.mp hm with hm | hm
      · rw [hm]
      · exact hpost k hm
  · intro k hk1 hk2
    have hj2 : j < first_child_index D i +
        (min (first_child_index D i + D) ps.length - first_child_index D i) :=
      hjb.2
    have hkmem : k ∈ List.range' (first_child_index D i)
        (min (first_child_index D i + D) ps.length - first_child_index D i) :=
      List.mem_range'_1.mpr ⟨hk1, by omega⟩
    rw [hdec'] at hkmem
    rcases List.mem_append.mp hkmem with hm | hm
    · exact hpre k hm
    · rcases List.mem_cons.mp hm with hm | hm
      · omega
      · have := hpairpost.1 k hm
        omega

lemma highest_priority_child_index_none (ps : List (Int × α)) (D i : Nat)
    (h : ps.length ≤ first_child_index D i) :
    highest_priority_child_index ps D i = none := by
  unfold highest_priority_child_index
  rw [if_pos (by omega)]

/-! ## Correctness of the push-down loop

The loop is analysed with the saved `input` pair held out: the conceptual heap
state at `(ps, cur)` is `ps.set cur input`.  Hypothesis `hA` says that state
satisfies every order constraint in the region at or below `i0` except for the
edges leaving `cur`; hypothesis `hB` says that once the loop has moved strictly
below `i0`, the parent of `cur` already dominates every child of `cur`. -/

lemma push_down_loop_spec (D : Nat) (hD : 1 ≤ D) (i0 : Nat) (input : Int × α)
    (fl : Nat) :
    ∀ (fuel : Nat) (ps : List (Int × α)) (cur : Nat),
      fl = first_leaf_index ps.length D →
      cur < ps.length →
      ps.length ≤ fuel + cur →
      i0 ≤ cur →
      (∀ j, 0 < j → j < ps.length → i0 ≤ parent_index D j →
        parent_index D j ≠ cur →
        prioAt (ps.set cur input) j ≤ prioAt (ps.set cur input) (parent_index D j)) →
      (i0 < cur → i0 ≤ parent_index D cur ∧
        (∀ j, 0 < j → j < ps.length → parent_index D j = cur →
          prioAt (ps.set cur input) j ≤
            prioAt (ps.set cur input) (parent_index D cur))) →
      (push_down_loop D input.1 fl fuel ps cur).1.length = ps.length ∧
      cur ≤ (push_down_loop D input.1 fl fuel ps cur).2 ∧
      (push_down_loop D input.1 fl fuel ps cur).2 < ps.length ∧
      HeapBelow D ((push_down_loop D input.1 fl fuel ps cur).1.set
        (push_down_loop D input.1 fl fuel ps cur).2 input) i0 := by
  intro fuel
  induction fuel with
  | zero =>
    intro ps cur _ hcur hfuel _ _ _
    exact absurd hcur (by omega)
  | succ fuel ih =>
    intro ps cur hfl hcur hfuel hi0 hA hB
    have hms_cur : prioAt (ps.set cur input) cur = input.1 :=
      prioAt_set_self ps cur input hcur
    have hms_at : ∀ x, x ≠ cur → prioAt (ps.set cur input) x = prioAt ps x :=
      fun x hx => prioAt_set_ne ps cur x input (Ne.symm hx)
    by_cases hguard : cur < fl
    · have hch : first_child_index D cur < ps.length :=
        (lt_first_leaf_iff D ps.length cur hD).mp (hfl ▸ hguard)
      obtain ⟨c, hc, hcge, hclt, hcmax, hcleft⟩ :=
        highest_priority_child_index_spec ps D cur hD hch
      have hccur : cur < c := lt_of_lt_of_le (lt_first_child_index D cur hD) hcge
      have hclen : c < ps.length := lt_of_lt_of_le hclt (min_le_right _ _)
      have hcD : c < first_child_index D cur + D :=
        lt_of_lt_of_le hclt (min_le_left _ _)
      have hpac : parent_index D c = cur := parent_index_eq D cur c hD hcge hcD
      by_cases hswap : input.1 < prioAt ps c
      · -- slide the best child up and continue from its slot
        have hstep : push_down_loop D input.1 fl (fuel + 1) ps cur =
            push_down_loop D input.1 fl fuel
              (ps.set cur (ps.getD c default)) c := by
          simp only [push_down_loop, if_pos hguard, hc]
          rw [if_pos (show input.1 < prioAt ps c from hswap)]
        set ps' := ps.set cur (ps.getD c default) with hps'
        have hlen' : ps'.length = ps.length := by
          simp [hps', List.length_set]
        have hms'_at : ∀ x, x ≠ cur → x ≠ c →
            prioAt (ps'.set c input) x = prioAt (ps.set cur input) x := by
          intro x hx1 hx2
          rw [prioAt_set_ne ps' c x input (Ne.symm hx2), hps',
            prioAt_set_ne ps cur x _ (Ne.symm hx1),
            prioAt_set_ne ps cur x input (Ne.symm hx1)]
        have hms'_cur : prioAt (ps'.set c input) cur = prioAt ps c := by
          rw [prioAt_set_ne ps' c cur input (by omega), hps',
            prioAt_set_self ps cur _ hcur]
          rfl
        have hms'_c : prioAt (ps'.set c input) c = input.1 :=
          prioAt_set_self ps' c input (by omega)
        have hres := ih ps' c (by rw [hlen']; exact hfl)
          (by omega) (by omega) (by omega)
          ?_ ?_
        · rw [hstep]
          refine ⟨by rw [hres.1, hlen'], by omega, by omega, hres.2.2.2⟩
        · -- hA for the new configuration
          intro j hj0 hjlen hpaj hpajne
          rw [hlen'] at hjlen
          by_cases hjcur : j = cur
          · subst hjcur
            have hpacur_lt : parent_index D j < j := parent_index_lt D j hD hj0
            rw [hms'_cur, hms'_at (parent_index D j) (by omega) (by omega)]
            obtain ⟨hBpa, hBch⟩ := hB (by omega)
            have hstep2 := hBch c (by omega) hclen hpac
            rw [hms_at c (by omega)] at hstep2
            exact hstep2
          · by_cases hjc : j = c
            · subst hjc
              rw [hpac, hms'_c, hms'_cur]
              exact le_of_lt hswap
            · by_cases hpjcur : parent_index D j = cur
              · rw [hpjcur, hms'_cur, hms'_at j hjcur hjc, hms_at j hjcur]
                obtain ⟨hb1, hb2⟩ := parent_index_spec D j hD hj0
                rw [hpjcur] at hb1 hb2
                exact hcmax j hb1 (by omega)
              · have hpajc : parent_index D j ≠ cur := hpjcur
                rw [hms'_at j hjcur hjc,
                  hms'_at (parent_index D j) hpjcur hpajne]
                exact hA j hj0 hjlen hpaj hpjcur
        · -- hB for the new configuration
          intro _
          rw [hlen']
          refine ⟨by rw [hpac]; omega, ?_⟩
          intro j hj0 hjlen hpj
          have hjgt : c < j := by
            obtain ⟨hb1, _⟩ := parent_index_spec D j hD hj0
            rw [hpj] at hb1
            exact lt_of_lt_of_le (lt_first_child_index D c hD) hb1
          rw [hpac, hms'_cur, hms'_at j (by omega) (by omega)]
          have hstep2 := hA j hj0 hjlen (by omega) (by rw [hpj]; omega)
          rw [hpj, hms_at c (by omega)] at hstep2
          exact hstep2
      · -- best child does not beat the saved pair: stop here
        have hstep : push_down_loop D input.1 fl (fuel + 1) ps cur = (ps, cur) := by
          simp only [push_down_loop, if_pos hguard, hc]
          rw [if_neg hswap]
        rw [hstep]
        refine ⟨rfl, le_refl cur, hcur, ?_⟩
        intro j hj0 hjlen hpaj
        simp only [List.length_set] at hjlen
        by_cases hpjcur : parent_index D j = cur
        · obtain ⟨hb1, hb2⟩ := parent_index_spec D j hD hj0
          rw [hpjcur] at hb1 hb2
          have hjne : j ≠ cur := by
            have := lt_first_child_index D cur hD
            omega
          rw [hpjcur, hms_cur, hms_at j hjne]
          exact le_trans (hcmax j hb1 (by omega)) (le_of_not_lt hswap)
        · exact hA j hj0 hjlen hpaj hpjcur
    · -- current slot is already a leaf
      have hstep : push_down_loop D input.1 fl (fuel + 1) ps cur = (ps, cur) := by
        simp only [push_down_loop, if_neg hguard]
      rw [hstep]
      refine ⟨rfl, le_refl cur, hcur, ?_⟩
      intro j hj0 hjlen hpaj
      simp only [List.length_set] at hjlen
      by_cases hpjcur : parent_index D j = cur
      · exfalso
        have hnofc : ¬ first_child_index D cur < ps.length := by
          intro hcon
          exact hguard (hfl ▸ (lt_first_leaf_iff D ps.length cur hD).mpr hcon)
        obtain ⟨hb1, _⟩ := parent_index_spec D j hD hj0
        rw [hpjcur] at hb1
        omega
      · exact hA j hj0 hjlen hpaj hpjcur

lemma highest_priority_child_index_some_spec (ps : List (Int × α)) (D i c : Nat)
    (hD : 1 ≤ D) (hc : highest_priority_child_index ps D i = some c) :
    first_child_index D i ≤ c ∧
      c < min (first_child_index D i + D) ps.length ∧
      (∀ k, first_child_index D i ≤ k →
        k < min (first_child_index D i + D) ps.length → prioAt ps k ≤ prioAt ps c) ∧
      (∀ k, first_child_index D i ≤ k → k < c → prioAt ps k < prioAt ps c) := by
  by_cases h : first_child_index D i < ps.length
  · obtain ⟨c', hc', h1, h2, h3, h4⟩ :=
      highest_priority_child_index_spec ps D i hD h
    rw [hc] at hc'
    obtain rfl : c = c' := by injection hc'
    exact ⟨h1, h2, h3, h4⟩
  · rw [highest_priority_child_index_none ps D i (by omega)] at hc
    cases hc

/-- `_push_down` starting at the region root `i0`: if every order constraint
with parent in the region holds except possibly on the edges leaving `i0`,
push-down restores the invariant on the whole region. -/
lemma push_down_spec (D : Nat) (hD : 1 ≤ D) (ps : List (Int × α)) (i0 : Nat)
    (hcur : i0 < ps.length)
    (hA : ∀ j, 0 < j → j < ps.length → i0 ≤ parent_index D j →
      parent_index D j ≠ i0 → prioAt ps j ≤ prioAt ps (parent_index D j)) :
    (push_down D ps i0).length = ps.length ∧ HeapBelow D (push_down D ps i0) i0 := by
  have hset : ps.set i0 (ps.getD i0 default) = ps := set_getD_self ps i0 default hcur
  have hres := push_down_loop_spec D hD i0 (ps.getD i0 default)
    (first_leaf_index ps.length D) ps.length ps i0 rfl hcur (by omega) (le_refl i0)
    (by rw [hset]; exact hA) (by omega)
  have hdef : push_down D ps i0 =
      (push_down_loop D (ps.getD i0 default).1 (first_leaf_index ps.length D)
        ps.length ps i0).1.set
      (push_down_loop D (ps.getD i0 default).1 (first_leaf_index ps.length D)
        ps.length ps i0).2 (ps.getD i0 default) := rfl
  rw [hdef]
  exact ⟨by rw [List.length_set]; exact hres.1, hres.2.2.2⟩

lemma push_down_loop_perm (D : Nat) (hD : 1 ≤ D) (ip : Int) (fl : Nat) :
    ∀ (fuel : Nat) (ps : List (Int × α)) (cur : Nat) (v : Int × α),
      cur < ps.length →
      ((push_down_loop D ip fl fuel ps cur).1.set
        (push_down_loop D ip fl fuel ps cur).2 v).Perm (ps.set cur v) := by
  intro fuel
  induction fuel with
  | zero =>
    intro ps cur v _
    exact List.Perm.refl _
  | succ fuel ih =>
    intro ps cur v hcur
    by_cases hguard : cur < fl
    · cases hc : highest_priority_child_index ps D cur with
      | none =>
        simp only [push_down_loop, if_pos hguard, hc]
        exact List.Perm.refl _
      | some c =>
        obtain ⟨hcge, hclt, _, _⟩ :=
          highest_priority_child_index_some_spec ps D cur c hD hc
        have hccur : cur < c := lt_of_lt_of_le (lt_first_child_index D cur hD) hcge
        have hclen : c < ps.length := lt_of_lt_of_le hclt (min_le_right _ _)
        by_cases hswap : ip < prioAt ps c
        · have hstep : push_down_loop D ip fl (fuel + 1) ps cur =
              push_down_loop D ip fl fuel (ps.set cur (ps.getD c default)) c := by
            simp only [push_down_loop, if_pos hguard, hc]
            rw [if_pos hswap]
          rw [hstep]
          have hrec := ih (ps.set cur (ps.getD c default)) c v
            (by rw [List.length_set]; exact hclen)
          exact hrec.trans
            (set_swap_perm ps cur c v default hcur hclen (by omega))
        · have hstep : push_down_loop D ip fl (fuel + 1) ps cur = (ps, cur) := by
            simp only [push_down_loop, if_pos hguard, hc]
            rw [if_neg hswap]
          rw [hstep]
    · have hstep : push_down_loop D ip fl (fuel + 1) ps cur = (ps, cur) := by
        simp only [push_down_loop, if_neg hguard]
      rw [hstep]

lemma push_down_perm (D : Nat) (hD : 1 ≤ D) (ps : List (Int × α)) (i : Nat)
    (hi : i < ps.length) : (push_down D ps i).Perm ps := by
  have hdef : push_down D ps i =
      (push_down_loop D (ps.getD i default).1 (first_leaf_index ps.length D)
        ps.length ps i).1.set
      (push_down_loop D (ps.getD i default).1 (first_leaf_index ps.length D)
        ps.length ps i).2 (ps.getD i default) := rfl
  rw [hdef]
  have := push_down_loop_perm D hD (ps.getD i default).1
    (first_leaf_index ps.length D) ps.length ps i (ps.getD i default) hi
  rwa [set_getD_self ps i default hi] at this

lemma push_down_length (D : Nat) (hD : 1 ≤ D) (ps : List (Int × α)) (i : Nat)
    (hi : i < ps.length) : (push_down D ps i).length = ps.length :=
  (push_down_perm D hD ps i hi).length_eq

/-! ## Correctness of the bubble-up loop -/

lemma bubble_up_loop_spec (D : Nat) (hD : 1 ≤ D) (input : Int × α) :
    ∀ (fuel : Nat) (ps : List (Int × α)) (idx : Nat),
      idx < ps.length →
      idx ≤ fuel →
      (∀ j, 0 < j → j < ps.length → j ≠ idx →
        prioAt (ps.set idx input) j ≤ prioAt (ps.set idx input) (parent_index D j)) →
      (0 < idx → ∀ c, 0 < c → c < ps.length → parent_index D c = idx →
        prioAt (ps.set idx input) c ≤ prioAt ps (parent_index D idx)) →
      (bubble_up_loop D input.1 fuel ps idx).1.length = ps.length ∧
      (bubble_up_loop D input.1 fuel ps idx).2 < ps.length ∧
      HeapBelow D ((bubble_up_loop D input.1 fuel ps idx).1.set
        (bubble_up_loop D input.1 fuel ps idx).2 input) 0 := by
  intro fuel
  induction fuel with
  | zero =>
    intro ps idx hidx hfuel hA _
    have hidx0 : idx = 0 := by omega
    subst hidx0
    refine ⟨rfl, hidx, ?_⟩
    intro j hj0 hjlen _
    simp only [List.length_set] at hjlen
    exact hA j hj0 hjlen (by omega)
  | succ fuel ih =>
    intro ps idx hidx hfuel hA hC
    have hms_idx : prioAt (ps.set idx input) idx = input.1 :=
      prioAt_set_self ps idx input hidx
    have hms_at : ∀ x, x ≠ idx → prioAt (ps.set idx input) x = prioAt ps x :=
      fun x hx => prioAt_set_ne ps idx x input (Ne.symm hx)
    by_cases hpos : 0 < idx
    · have hpidx_lt : parent_index D idx < idx := parent_index_lt D idx hD hpos
      have hpidx_len : parent_index D idx < ps.length := by omega
      obtain ⟨hb1, hb2⟩ := parent_index_spec D idx hD hpos
      by_cases hswap : (ps.getD (parent_index D idx) default).1 < input.1
      · -- slide the parent down and continue from its slot
        have hstep : bubble_up_loop D input.1 (fuel + 1) ps idx =
            bubble_up_loop D input.1 fuel
              (ps.set idx (ps.getD (parent_index D idx) default))
              (parent_index D idx) := by
          simp only [bubble_up_loop, if_pos hpos]
          rw [if_pos hswap]
        set pidx := parent_index D idx with hpidx
        set ps' := ps.set idx (ps.getD pidx default) with hps'
        have hlen' : ps'.length = ps.length := by simp [hps', List.length_set]
        have hms'_at : ∀ x, x ≠ idx → x ≠ pidx →
            prioAt (ps'.set pidx input) x = prioAt (ps.set idx input) x := by
          intro x hx1 hx2
          rw [prioAt_set_ne ps' pidx x input (Ne.symm hx2), hps',
            prioAt_set_ne ps idx x _ (Ne.symm hx1),
            prioAt_set_ne ps idx x input (Ne.symm hx1)]
        have hms'_idx : prioAt (ps'.set pidx input) idx = prioAt ps pidx := by
          rw [prioAt_set_ne ps' pidx idx input (by omega), hps',
            prioAt_set_self ps idx _ hidx]
          rfl
        have hms'_pidx : prioAt (ps'.set pidx input) pidx = input.1 :=
          prioAt_set_self ps' pidx input (by omega)
        have hres := ih ps' pidx (by omega) (by omega) ?_ ?_
        · rw [hstep]
          refine ⟨by rw [hres.1, hlen'], by omega, hres.2.2⟩
        · -- hA for the new configuration
          intro j hj0 hjlen hjne
          rw [hlen'] at hjlen
          by_cases hjidx : j = idx
          · subst hjidx
            rw [hms'_idx, ← hpidx, hms'_pidx]
            exact le_of_lt hswap
          · by_cases hpj : parent_index D j = idx
            · -- j is a child of idx, now holding the old parent value
              have hjgt : idx < j := by
                obtain ⟨hc1, _⟩ := parent_index_spec D j hD hj0
                rw [hpj] at hc1
                exact lt_of_lt_of_le (lt_first_child_index D idx hD) hc1
              rw [hpj, hms'_idx, hms'_at j hjidx (by omega)]
              exact hC hpos j hj0 hjlen hpj
            · by_cases hpapidx : parent_index D j = pidx
              · -- j is another child of the parent slot now holding `input`
                rw [hms'_at j hjidx hjne, hpapidx, hms'_pidx]
                have hAj := hA j hj0 hjlen hjidx
                rw [hpapidx, hms_at pidx (by omega)] at hAj
                exact le_trans hAj (le_of_lt hswap)
              · -- untouched edge
                rw [hms'_at j hjidx hjne, hms'_at (parent_index D j) hpj hpapidx]
                exact hA j hj0 hjlen hjidx
        · -- hC for the new configuration
          intro hppos c hc0 hclen hpc
          rw [hlen'] at hclen
          have hpp2 : parent_index D pidx < pidx := parent_index_lt D pidx hD hppos
          by_cases hcidx : c = idx
          · rw [hcidx, hms'_idx]
            have hAp := hA pidx (by omega) (by omega) (by omega)
            rw [hms_at pidx (by omega), hms_at (parent_index D pidx) (by omega)] at hAp
            have : prioAt ps' (parent_index D pidx) = prioAt ps (parent_index D pidx) := by
              rw [hps', prioAt_set_ne ps idx _ _ (by
                have := parent_index_lt D pidx hD hppos
                omega)]
            rw [this]
            exact hAp
          · have hcc : c ≠ pidx := by
              have hcgt : pidx < c := by
                obtain ⟨hc1, _⟩ := parent_index_spec D c hD hc0
                rw [hpc] at hc1
                exact lt_of_lt_of_le (lt_first_child_index D pidx hD) hc1
              omega
            rw [hms'_at c hcidx hcc]
            have hAc := hA c hc0 hclen hcidx
            rw [hpc] at hAc
            have h1 : prioAt (ps.set idx input) pidx = prioAt ps pidx :=
              hms_at pidx (by omega)
            have h2 : prioAt ps' (parent_index D pidx) = prioAt ps (parent_index D pidx) := by
              rw [hps', prioAt_set_ne ps idx _ _ (by
                have := parent_index_lt D pidx hD hppos
                omega)]
            rw [h1] at hAc
            rw [h2]
            have hApidx := hA pidx (by omega) (by omega) (by omega)
            rw [hms_at pidx (by omega), hms_at (parent_index D pidx) (by omega)] at hApidx
            exact le_trans hAc hApidx
      · -- the parent is not beaten: stop here
        have hstep : bubble_up_loop D input.1 (fuel + 1) ps idx = (ps, idx) := by
          simp only [bubble_up_loop, if_pos hpos]
          rw [if_neg hswap]
        rw [hstep]
        refine ⟨rfl, hidx, ?_⟩
        intro j hj0 hjlen _
        simp only [List.length_set] at hjlen
        by_cases hjidx : j = idx
        · subst hjidx
          rw [hms_idx, hms_at (parent_index D j) (by omega)]
          exact le_of_not_lt hswap
        · exact hA j hj0 hjlen hjidx
    · -- the root was reached
      have hstep : bubble_up_loop D input.1 (fuel + 1) ps idx = (ps, idx) := by
        simp only [bubble_up_loop, if_neg hpos]
      rw [hstep]
      refine ⟨rfl, hidx, ?_⟩
      intro j hj0 hjlen _
      simp only [List.length_set] at hjlen
      exact hA j hj0 hjlen (by omega)

lemma bubble_up_loop_perm (D : Nat) (hD : 1 ≤ D) (ip : Int) :
    ∀ (fuel : Nat) (ps : List (Int × α)) (idx : Nat) (v : Int × α),
      idx < ps.length →
      ((bubble_up_loop D ip fuel ps idx).1.set
        (bubble_up_loop D ip fuel ps idx).2 v).Perm (ps.set idx v) := by
  intro fuel
  induction fuel with
  | zero =>
    intro ps idx v _
    exact List.Perm.refl _
  | succ fuel ih =>
    intro ps idx v hidx
    by_cases hpos : 0 < idx
    · have hpidx_lt : parent_index D idx < idx := parent_index_lt D idx hD hpos
      by_cases hswap : (ps.getD (parent_index D idx) default).1 < ip
      · have hstep : bubble_up_loop D ip (fuel + 1) ps idx =
            bubble_up_loop D ip fuel
              (ps.set idx (ps.getD (parent_index D idx) default))
              (parent_index D idx) := by
          simp only [bubble_up_loop, if_pos hpos]
          rw [if_pos hswap]
        rw [hstep]
        have hrec := ih (ps.set idx (ps.getD (parent_index D idx) default))
          (parent_index D idx) v (by rw [List.length_set]; omega)
        exact hrec.trans
          (set_swap_perm ps idx (parent_index D idx) v default hidx
            (by omega) (by omega))
      · have hstep : bubble_up_loop D ip (fuel + 1) ps idx = (ps, idx) := by
          simp only [bubble_up_loop, if_pos hpos]
          rw [if_neg hswap]
        rw [hstep]
    · have hstep : bubble_up_loop D ip (fuel + 1) ps idx = (ps, idx) := by
        simp only [bubble_up_loop, if_neg hpos]
      rw [hstep]

lemma bubble_up_def (D : Nat) (ps : List (Int × α)) (index : Nat) :
    bubble_up D ps index =
      (bubble_up_loop D (ps.getD index default).1 ps.length ps index).1.set
        (bubble_up_loop D (ps.getD index default).1 ps.length ps index).2
        (ps.getD index default) := rfl

lemma push_down_def (D : Nat) (ps : List (Int × α)) (index : Nat) :
    push_down D ps index =
      (push_down_loop D (ps.getD index default).1 (first_leaf_index ps.length D)
        ps.length ps index).1.set
      (push_down_loop D (ps.getD index default).1 (first_leaf_index ps.length D)
        ps.length ps index).2 (ps.getD index default) := rfl

lemma bubble_up_perm (D : Nat) (hD : 1 ≤ D) (ps : List (Int × α)) (idx : Nat)
    (hi : idx < ps.length) : (bubble_up D ps idx).Perm ps := by
  rw [bubble_up_def]
  have := bubble_up_loop_perm D hD (ps.getD idx default).1
    ps.length ps idx (ps.getD idx default) hi
  rwa [set_getD_self ps idx default hi] at this

/-! ## `insert` -/

lemma prioAt_append (ps l : List (Int × α)) (j : Nat) (hj : j < ps.length) :
    prioAt (ps ++ l) j = prioAt ps j := by
  unfold prioAt
  rw [List.getD_append _ _ _ _ hj]

lemma insert_def (D : Nat) (ps : List (Int × α)) (e : α) (p : Int) :
    insert D ps e p =
      bubble_up D (ps ++ [(p, e)]) ((ps ++ [(p, e)]).length - 1) := rfl

lemma insert_perm (D : Nat) (hD : 1 ≤ D) (ps : List (Int × α)) (e : α) (p : Int) :
    (insert D ps e p).Perm ((p, e) :: ps) := by
  rw [insert_def]
  have hlen : (ps ++ [(p, e)]).length = ps.length + 1 := by simp
  have h1 : (bubble_up D (ps ++ [(p, e)]) ((ps ++ [(p, e)]).length - 1)).Perm
      (ps ++ [(p, e)]) :=
    bubble_up_perm D hD _ _ (by omega)
  exact h1.trans (List.perm_append_singleton (p, e) ps)

lemma insert_length (D : Nat) (hD : 1 ≤ D) (ps : List (Int × α)) (e : α) (p : Int) :
    (insert D ps e p).length = ps.length + 1 := by
  have := (insert_perm D hD ps e p).length_eq
  simpa using this

lemma insert_isHeap (D : Nat) (hD : 1 ≤ D) (ps : List (Int × α))
    (h : IsHeap D ps) (e : α) (p : Int) : IsHeap D (insert D ps e p) := by
  have hlen : (ps ++ [(p, e)]).length = ps.length + 1 := by simp
  have hidx : (ps ++ [(p, e)]).length - 1 < (ps ++ [(p, e)]).length := by omega
  have hset : (ps ++ [(p, e)]).set ((ps ++ [(p, e)]).length - 1)
      ((ps ++ [(p, e)]).getD ((ps ++ [(p, e)]).length - 1) default) =
      ps ++ [(p, e)] :=
    set_getD_self _ _ _ hidx
  have hres := bubble_up_loop_spec D hD
    ((ps ++ [(p, e)]).getD ((ps ++ [(p, e)]).length - 1) default)
    (ps ++ [(p, e)]).length (ps ++ [(p, e)]) ((ps ++ [(p, e)]).length - 1)
    hidx (by omega) ?_ ?_
  · rw [insert_def, bubble_up_def]
    exact (heapBelow_zero_iff D _ hD).mp hres.2.2
  · -- every edge not entering the appended slot is an original edge
    intro j hj0 hjlen hjne
    rw [hset]
    have hjlt : j < ps.length := by omega
    have hpajlt : parent_index D j < ps.length := by
      have := parent_index_lt D j hD hj0
      omega
    rw [prioAt_append ps [(p, e)] j hjlt,
      prioAt_append ps [(p, e)] (parent_index D j) hpajlt]
    exact (isHeap_iff_parent D ps hD).mp h j hj0 hjlt
  · -- the appended slot has no children inside the array
    intro hpos c hc0 hclen hpc
    exfalso
    obtain ⟨hc1, _⟩ := parent_index_spec D c hD hc0
    rw [hpc] at hc1
    have : (ps ++ [(p, e)]).length - 1 < first_child_index D ((ps ++ [(p, e)]).length - 1) :=
      lt_first_child_index D _ hD
    have hmul : (ps ++ [(p, e)]).length - 1 ≤ ((ps ++ [(p, e)]).length - 1) * D := by
      calc (ps ++ [(p, e)]).length - 1 = ((ps ++ [(p, e)]).length - 1) * 1 := by omega
        _ ≤ ((ps ++ [(p, e)]).length - 1) * D := Nat.mul_le_mul_left _ hD
    unfold first_child_index at hc1
    omega

/-! ## `top` -/

lemma prioAt_dropLast_set (ps : List (Int × α)) (v : Int × α) (x : Nat)
    (hx : 0 < x) (hxl : x < ps.length - 1) :
    prioAt ((ps.dropLast).set 0 v) x = prioAt ps x := by
  unfold prioAt
  rw [List.getD_eq_getElem?_getD, List.getElem?_set_ne (by omega : (0 : Nat) ≠ x),
    List.getD_eq_getElem?_getD]
  congr 1
  rw [List.getElem?_eq_getElem (by simp [List.length_dropLast]; omega),
    List.getElem?_eq_getElem (by omega : x < ps.length)]
  rw [List.getElem_dropLast]

lemma top_empty (D : Nat) (ps : List (Int × α)) (h : ps.length = 0) :
    top D ps = (none, ps) := by
  simp [top, h]

lemma top_fst (D : Nat) (ps : List (Int × α)) (h : ps ≠ []) :
    (top D ps).1 = some ((ps.getD 0 default).2) := by
  have hlen : ps.length ≠ 0 := by simpa using List.length_pos.mpr h |>.ne'
  unfold top
  rw [if_neg hlen]
  by_cases h1 : ps.length = 1
  · rw [if_pos h1]
  · rw [if_neg h1]

lemma top_snd_one (D : Nat) (ps : List (Int × α)) (h : ps.length = 1) :
    (top D ps).2 = [] := by
  unfold top
  rw [if_neg (by omega), if_pos h]

lemma top_snd_big (D : Nat) (ps : List (Int × α)) (h : 2 ≤ ps.length) :
    (top D ps).2 = push_down D ((ps.dropLast).set 0 (ps.getLastD default)) 0 := by
  unfold top
  rw [if_neg (by omega), if_neg (by omega)]

lemma top_length (D : Nat) (hD : 1 ≤ D) (ps : List (Int × α)) (h : ps ≠ []) :
    (top D ps).2.length = ps.length - 1 := by
  have hlen : 0 < ps.length := List.length_pos.mpr h
  by_cases h1 : ps.length = 1
  · rw [top_snd_one D ps h1]
    simp [h1]
  · rw [top_snd_big D ps (by omega)]
    have hq : ((ps.dropLast).set 0 (ps.getLastD default)).length = ps.length - 1 := by
      simp [List.length_set, List.length_dropLast]
    rw [push_down_length D hD _ 0 (by omega), hq]

lemma top_perm (D : Nat) (hD : 1 ≤ D) (ps : List (Int × α)) (h : ps ≠ []) :
    (ps.getD 0 default :: (top D ps).2).Perm ps := by
  have hlen : 0 < ps.length := List.length_pos.mpr h
  by_cases h1 : ps.length = 1
  · rw [top_snd_one D ps h1]
    match ps, h1 with
    | [x], _ => exact List.Perm.refl _
  · have h2 : 2 ≤ ps.length := by omega
    rw [top_snd_big D ps h2]
    have htl : (ps.dropLast).length = ps.length - 1 := List.length_dropLast ps
    have hq : ((ps.dropLast).set 0 (ps.getLastD default)).length = ps.length - 1 := by
      simp [List.length_set, htl]
    have hpd : (push_down D ((ps.dropLast).set 0 (ps.getLastD default)) 0).Perm
        ((ps.dropLast).set 0 (ps.getLastD default)) :=
      push_down_perm D hD _ 0 (by omega)
    have hroot : ps.getD 0 default = (ps.dropLast).getD 0 default := by
      conv_lhs => rw [← List.dropLast_concat_getLast h]
      rw [List.getD_append _ _ _ _ (by omega)]
    have hcons : (ps.getD 0 default :: (ps.dropLast).set 0 (ps.getLastD default)).Perm
        (ps.getLastD default :: ps.dropLast) := by
      rw [hroot]
      exact getD_cons_set_perm (ps.dropLast) 0 (ps.getLastD default) default (by omega)
    have hlast : (ps.getLastD default :: ps.dropLast).Perm ps := by
      have hgl : ps.getLastD default = ps.getLast h := by
        rw [List.getLastD_eq_getLast?, List.getLast?_eq_getLast ps h]
        rfl
      have := (List.perm_append_singleton (ps.getLastD default) ps.dropLast).symm
      refine this.trans ?_
      rw [hgl, List.dropLast_concat_getLast h]
    exact ((hpd.cons (ps.getD 0 default)).trans hcons).trans hlast

lemma top_isHeap (D : Nat) (hD : 1 ≤ D) (ps : List (Int × α))
    (h : IsHeap D ps) : IsHeap D (top D ps).2 := by
  by_cases h0 : ps.length = 0
  · rw [top_empty D ps h0]
    exact h
  · by_cases h1 : ps.length = 1
    · rw [top_snd_one D ps h1]
      intro i j hj _ _
      simp at hj
    · have h2 : 2 ≤ ps.length := by omega
      rw [top_snd_big D ps h2]
      have hq : ((ps.dropLast).set 0 (ps.getLastD default)).length = ps.length - 1 := by
        simp [List.length_set, List.length_dropLast]
      have hres := push_down_spec D hD ((ps.dropLast).set 0 (ps.getLastD default)) 0
        (by omega) ?_
      · exact (heapBelow_zero_iff D _ hD).mp hres.2
      · intro j hj0 hjlen hpaj hpane
        rw [hq] at hjlen
        have hpajlt : parent_index D j < j := parent_index_lt D j hD hj0
        rw [prioAt_dropLast_set ps _ j hj0 hjlen,
          prioAt_dropLast_set ps _ (parent_index D j) (by omega) (by omega)]
        exact (isHeap_iff_parent D ps hD).mp h j hj0 (by omega)

/-! ## `heapify` -/

lemma heapify_def (D : Nat) (el : List α) (pr : List Int) :
    heapify D el pr =
      (List.range (first_leaf_index (pr.zip el).length D)).reverse.foldl
        (fun qs i => push_down D qs i) (pr.zip el) := rfl

lemma heapify_aux (D : Nat) (hD : 1 ≤ D) (n0 : Nat) :
    ∀ (k : Nat) (qs : List (Int × α)), qs.length = n0 →
      k ≤ first_leaf_index n0 D → HeapBelow D qs k →
      ((List.range k).reverse.foldl (fun a i => push_down D a i) qs).length = n0 ∧
      ((List.range k).reverse.foldl (fun a i => push_down D a i) qs).Perm qs ∧
      HeapBelow D ((List.range k).reverse.foldl (fun a i => push_down D a i) qs) 0 := by
  intro k
  induction k with
  | zero =>
    intro qs hlen _ hb
    exact ⟨hlen, List.Perm.refl _, hb⟩
  | succ k ih =>
    intro qs hlen hk hb
    have hrw : (List.range (k + 1)).reverse = k :: (List.range k).reverse := by
      rw [List.range_succ, List.reverse_append]
      rfl
    rw [hrw]
    simp only [List.foldl_cons]
    have hkfl : k < first_leaf_index n0 D := by omega
    have hklen : k < qs.length := by
      have h1 : first_child_index D k < n0 := by
        have := (lt_first_leaf_iff D n0 k hD).mp hkfl
        exact this
      have := lt_first_child_index D k hD
      omega
    have hpd := push_down_spec D hD qs k hklen ?_
    · have hres := ih (push_down D qs k) (hpd.1.trans hlen) (by omega)
        (heapBelow_of_ge D _ k k (le_refl k) hpd.2)
      exact ⟨hres.1, hres.2.1.trans (push_down_perm D hD qs k hklen), hres.2.2⟩
    · intro j hj0 hjlen hpaj hpane
      exact hb j hj0 hjlen (by omega)

lemma heapify_isHeap (D : Nat) (hD : 1 ≤ D) (el : List α) (pr : List Int) :
    IsHeap D (heapify D el pr) := by
  rw [heapify_def]
  have hinit : HeapBelow D (pr.zip el) (first_leaf_index (pr.zip el).length D) := by
    intro j hj0 hjlen hpaj
    exfalso
    have hnofc : ¬ first_child_index D (first_leaf_index (pr.zip el).length D) <
        (pr.zip el).length := by
      intro hcon
      have := (lt_first_leaf_iff D (pr.zip el).length
        (first_leaf_index (pr.zip el).length D) hD).mpr hcon
      omega
    have hmono : first_child_index D (first_leaf_index (pr.zip el).length D) ≤
        first_child_index D (parent_index D j) := by
      unfold first_child_index
      have := mul_le_mul_right' hpaj D
      omega
    obtain ⟨hc1, _⟩ := parent_index_spec D j hD hj0
    omega
  have hres := heapify_aux D hD (pr.zip el).length
    (first_leaf_index (pr.zip el).length D) (pr.zip el) rfl (le_refl _) hinit
  exact (heapBelow_zero_iff D _ hD).mp hres.2.2

lemma heapify_perm (D : Nat) (hD : 1 ≤ D) (el : List α) (pr : List Int) :
    (heapify D el pr).Perm (pr.zip el) := by
  rw [heapify_def]
  have hinit : HeapBelow D (pr.zip el) (first_leaf_index (pr.zip el).length D) := by
    intro j hj0 hjlen hpaj
    exfalso
    have hnofc : ¬ first_child_index D (first_leaf_index (pr.zip el).length D) <
        (pr.zip el).length := by
      intro hcon
      have := (lt_first_leaf_iff D (pr.zip el).length
        (first_leaf_index (pr.zip el).length D) hD).mpr hcon
      omega
    have hmono : first_child_index D (first_leaf_index (pr.zip el).length D) ≤
        first_child_index D (parent_index D j) := by
      unfold first_child_index
      have := mul_le_mul_right' hpaj D
      omega
    obtain ⟨hc1, _⟩ := parent_index_spec D j hD hj0
    omega
  exact (heapify_aux D hD (pr.zip el).length
    (first_leaf_index (pr.zip el).length D) (pr.zip el) rfl (le_refl _) hinit).2.1

/-! ## `_validate`, root maximality, extraction sequences -/

lemma validate_iff (D : Nat) (hD : 1 ≤ D) (ps : List (Int × α)) :
    validate D ps = true ↔ IsHeap D ps := by
  unfold validate
  rw [List.all_eq_true]
  constructor
  · intro h i j hjlen h1 h2
    have hifl : i < first_leaf_index ps.length D :=
      (lt_first_leaf_iff D ps.length i hD).mpr (by omega)
    have hi := h i (List.mem_range.mpr hifl)
    rw [List.all_eq_true] at hi
    have hj := hi j (List.mem_range'_1.mpr ⟨h1, by omega⟩)
    exact of_decide_eq_true hj
  · intro h cur hcur
    rw [List.all_eq_true]
    intro child hchild
    rw [List.mem_range'_1] at hchild
    refine decide_eq_true (h cur child ?_ hchild.1 ?_) <;> omega

lemma isHeap_le_root (D : Nat) (hD : 1 ≤ D) (ps : List (Int × α))
    (h : IsHeap D ps) : ∀ j, j < ps.length → prioAt ps j ≤ prioAt ps 0 := by
  have hpar := (isHeap_iff_parent D ps hD).mp h
  intro j
  induction j using Nat.strong_induction_on with
  | _ j ih =>
    intro hj
    rcases Nat.eq_zero_or_pos j with h0 | h0
    · rw [h0]
    · have h1 := hpar j h0 hj
      have h2 := ih (parent_index D j) (parent_index_lt D j hD h0)
        (by have := parent_index_lt D j hD h0; omega)
      exact le_trans h1 h2

lemma isHeap_mem_le_root (D : Nat) (hD : 1 ≤ D) (ps : List (Int × α))
    (h : IsHeap D ps) : ∀ b ∈ ps, b.1 ≤ prioAt ps 0 := by
  intro b hb
  obtain ⟨i, hi, hbi⟩ := List.mem_iff_getElem.mp hb
  have : prioAt ps i = b.1 := by
    unfold prioAt
    rw [List.getD_eq_getElem ps default hi, hbi]
  rw [← this]
  exact isHeap_le_root D hD ps h i hi

lemma extract_trace_cons (D : Nat) (fuel : Nat) (ps : List (Int × α))
    (h : ps.length ≠ 0) :
    extract_trace D (fuel + 1) ps =
      ps.getD 0 default :: extract_trace D fuel (top D ps).2 := by
  simp [extract_trace, h]

lemma extract_trace_perm (D : Nat) (hD : 1 ≤ D) :
    ∀ (fuel : Nat) (ps : List (Int × α)), ps.length = fuel →
      (extract_trace D fuel ps).Perm ps := by
  intro fuel
  induction fuel with
  | zero =>
    intro ps h
    rw [List.length_eq_zero.mp h]
    exact List.Perm.refl _
  | succ fuel ih =>
    intro ps h
    have hne : ps ≠ [] := by
      intro hcon
      rw [hcon] at h
      simp at h
    rw [extract_trace_cons D fuel ps (by omega)]
    have hlen2 : (top D ps).2.length = fuel := by
      rw [top_length D hD ps hne]
      omega
    exact ((ih _ hlen2).cons _).trans (top_perm D hD ps hne)

lemma extract_trace_sorted (D : Nat) (hD : 1 ≤ D) :
    ∀ (fuel : Nat) (ps : List (Int × α)), ps.length = fuel → IsHeap D ps →
      (extract_trace D fuel ps).Sorted (fun a b : Int × α => b.1 ≤ a.1) := by
  intro fuel
  induction fuel with
  | zero =>
    intro ps h _
    rw [List.length_eq_zero.mp h]
    exact List.sorted_nil
  | succ fuel ih =>
    intro ps h hheap
    have hne : ps ≠ [] := by
      intro hcon
      rw [hcon] at h
      simp at h
    rw [extract_trace_cons D fuel ps (by omega)]
    have hlen2 : (top D ps).2.length = fuel := by
      rw [top_length D hD ps hne]
      omega
    rw [List.sorted_cons]
    refine ⟨?_, ih _ hlen2 (top_isHeap D hD ps hheap)⟩
    intro b hb
    have hbrest : b ∈ (top D ps).2 :=
      (extract_trace_perm D hD fuel (top D ps).2 hlen2).mem_iff.mp hb
    have hbps : b ∈ ps :=
      (top_perm D hD ps hne).mem_iff.mp (List.mem_cons_of_mem _ hbrest)
    exact isHeap_mem_le_root D hD ps hheap b hbps

lemma extract_trace_map_snd (D : Nat) :
    ∀ (fuel : Nat) (ps : List (Int × α)),
      (extract_trace D fuel ps).map Prod.snd = extract_list D fuel ps := by
  intro fuel
  induction fuel with
  | zero =>
    intro ps
    rfl
  | succ fuel ih =>
    intro ps
    by_cases h : ps.length = 0
    · have hps : ps = [] := List.length_eq_zero.mp h
      subst hps
      simp [extract_trace, extract_list, top]
    · rw [extract_trace_cons D fuel ps h]
      have hne : ps ≠ [] := by
        intro hcon
        rw [hcon] at h
        simp at h
      have htop : top D ps = (some ((ps.getD 0 default).2), (top D ps).2) := by
        rw [← top_fst D ps hne]
      rw [show extract_list D (fuel + 1) ps =
          ((ps.getD 0 default).2) :: extract_list D fuel (top D ps).2 from by
        simp only [extract_list]
        rw [htop]]
      simp only [List.map_cons, ih]

lemma extract_trace_eq_of_perm (D : Nat) (hD : 1 ≤ D) :
    ∀ (fuel : Nat) (hp hq : List (Int × α)), hp.length = fuel → hq.length = fuel →
      IsHeap D hp → IsHeap D hq → hp.Perm hq → (hp.map Prod.fst).Nodup →
      extract_trace D fuel hp = extract_trace D fuel hq := by
  intro fuel
  induction fuel with
  | zero =>
    intro hp hq h1 h2 _ _ _ _
    rw [List.length_eq_zero.mp h1, List.length_eq_zero.mp h2]
  | succ fuel ih =>
    intro hp hq h1 h2 hh1 hh2 hperm hnd
    have hne1 : hp ≠ [] := by
      intro hcon; rw [hcon] at h1; simp at h1
    have hne2 : hq ≠ [] := by
      intro hcon; rw [hcon] at h2; simp at h2
    have hr1mem : hp.getD 0 default ∈ hp := by
      rw [List.getD_eq_getElem hp default (by omega)]
      exact List.getElem_mem _
    have hr2mem : hq.getD 0 default ∈ hq := by
      rw [List.getD_eq_getElem hq default (by omega)]
      exact List.getElem_mem _
    have hr2hp : hq.getD 0 default ∈ hp := hperm.mem_iff.mpr hr2mem
    have hr1hq : hp.getD 0 default ∈ hq := hperm.mem_iff.mp hr1mem
    have hprioeq : (hp.getD 0 default).1 = (hq.getD 0 default).1 := by
      have ha := isHeap_mem_le_root D hD hp hh1 _ hr2hp
      have hb := isHeap_mem_le_root D hD hq hh2 _ hr1hq
      unfold prioAt at ha hb
      omega
    have hrooteq2 : hp.getD 0 default = hq.getD 0 default :=
      List.inj_on_of_nodup_map hnd hr1mem hr2hp hprioeq
    rw [extract_trace_cons D fuel hp (by omega),
      extract_trace_cons D fuel hq (by omega), hrooteq2]
    congr 1
    have hlen1 : (top D hp).2.length = fuel := by
      rw [top_length D hD hp hne1]; omega
    have hlen2 : (top D hq).2.length = fuel := by
      rw [top_length D hD hq hne2]; omega
    have hperm2 : (top D hp).2.Perm (top D hq).2 := by
      have p1 := top_perm D hD hp hne1
      have p2 := top_perm D hD hq hne2
      have : (hp.getD 0 default :: (top D hp).2).Perm
          (hq.getD 0 default :: (top D hq).2) :=
        (p1.trans hperm).trans p2.symm
      rw [hrooteq2] at this
      exact this.cons_inv
    have hnd2 : ((top D hp).2.map Prod.fst).Nodup := by
      have p1 := top_perm D hD hp hne1
      have : (hp.map Prod.fst).Perm
          ((hp.getD 0 default :: (top D hp).2).map Prod.fst) :=
        (p1.map Prod.fst).symm
      have hndcons := this.nodup_iff.mp hnd
      simp only [List.map_cons] at hndcons
      exact hndcons.of_cons
    exact ih (top D hp).2 (top D hq).2 hlen1 hlen2
      (top_isHeap D hD hp hh1) (top_isHeap D hD hq hh2) hperm2 hnd2

/-! ## Sequential insertion -/

lemma isHeap_nil (D : Nat) : IsHeap D ([] : List (Int × α)) := by
  intro i j hj _ _
  simp at hj

lemma insert_fold_isHeap (D : Nat) (hD : 1 ≤ D) :
    ∀ (l : List (α × Int)) (acc : List (Int × α)), IsHeap D acc →
      IsHeap D (l.foldl (fun qs ep => insert D qs ep.1 ep.2) acc) := by
  intro l
  induction l with
  | nil => intro acc h; exact h
  | cons ep l ih =>
    intro acc h
    exact ih (insert D acc ep.1 ep.2) (insert_isHeap D hD acc h ep.1 ep.2)

lemma insert_fold_perm (D : Nat) (hD : 1 ≤ D) :
    ∀ (l : List (α × Int)) (acc : List (Int × α)),
      (l.foldl (fun qs ep => insert D qs ep.1 ep.2) acc).Perm
        ((l.map fun ep => (ep.2, ep.1)) ++ acc) := by
  intro l
  induction l with
  | nil =>
    intro acc
    simp
  | cons ep l ih =>
    intro acc
    have h1 := ih (insert D acc ep.1 ep.2)
    have h2 : ((l.map fun ep => (ep.2, ep.1)) ++ insert D acc ep.1 ep.2).Perm
        ((l.map fun ep => (ep.2, ep.1)) ++ ((ep.2, ep.1) :: acc)) :=
      (insert_perm D hD acc ep.1 ep.2).append_left _
    have h3 : ((l.map fun ep => (ep.2, ep.1)) ++ ((ep.2, ep.1) :: acc)).Perm
        ((ep.2, ep.1) :: ((l.map fun ep => (ep.2, ep.1)) ++ acc)) :=
      List.perm_middle
    simpa using (h1.trans h2).trans h3

lemma zip_swap_map (el : List α) :
    ∀ (pr : List Int), ((el.zip pr).map fun ep => (ep.2, ep.1)) = pr.zip el := by
  induction el with
  | nil => intro pr; simp
  | cons e el ih =>
    intro pr
    cases pr with
    | nil => simp
    | cons p pr => simp [ih pr]

lemma insert_seq_perm (D : Nat) (hD : 1 ≤ D) (el : List α) (pr : List Int) :
    (insert_seq D el pr).Perm (pr.zip el) := by
  unfold insert_seq
  have := insert_fold_perm D hD (el.zip pr) []
  rw [List.append_nil, zip_swap_map el pr] at this
  exact this

lemma insert_seq_isHeap (D : Nat) (hD : 1 ≤ D) (el : List α) (pr : List Int) :
    IsHeap D (insert_seq D el pr) :=
  insert_fold_isHeap D hD (el.zip pr) [] (isHeap_nil D)

/-! ## Claim theorems for the d-ary heap -/

/-- Claim C1: for every branching factor D ≥ 2 and every sequence of mixed
`insert` / `extract_max` operations starting from any valid heap, after each
operation (the state after any prefix of the sequence) the stored
(priority, element) pairs satisfy the max-heap order invariant: every node's
priority is ≥ the priority of each of its up-to-D direct children. -/
theorem claim_c1_heap_invariant_preserved (D : Nat) (ps : List (Int × α))
    (hD : 2 ≤ D) (h : IsHeap D ps) (ops pre : List (HeapOp α))
    (hpre : pre <+: ops) : IsHeap D (apply_ops D ps pre) := by
  clear hpre
  induction pre generalizing ps with
  | nil => exact h
  | cons op pre ih =>
    rw [show apply_ops D ps (op :: pre) = apply_ops D (apply_op D ps op) pre from rfl]
    apply ih
    cases op with
    | ins e p => exact insert_isHeap D (by omega) ps h e p
    | ext => exact top_isHeap D (by omega) ps h

theorem claim_c1_heap_invariant_preserved_witness :
    IsHeap 2 (apply_ops 2 [((5 : Int), (0 : Nat)), (3, 1)] [HeapOp.ins 2 4]) :=
  claim_c1_heap_invariant_preserved 2 [((5 : Int), (0 : Nat)), (3, 1)] (by omega)
    ((validate_iff 2 (by omega) _).mp (by decide))
    [HeapOp.ins 2 4, HeapOp.ext] [HeapOp.ins 2 4] ⟨[HeapOp.ext], rfl⟩

/-- Claim C2: for every valid heap (any branching factor D ≥ 2) holding n
pairs, the n successive `extract_max` calls return the stored pairs in
non-increasing priority order: the trace of extracted root pairs is sorted by
priority, its element components are exactly the values `top` returns, and it
is a permutation of the stored pairs. -/
theorem claim_c2_extract_order (D : Nat) (ps : List (Int × α)) (hD : 2 ≤ D)
    (h : IsHeap D ps) :
    ((extract_trace D ps.length ps).map Prod.fst).Sorted (· ≥ ·) ∧
    (extract_trace D ps.length ps).map Prod.snd = extract_list D ps.length ps ∧
    (extract_trace D ps.length ps).Perm ps := by
  refine ⟨?_, extract_trace_map_snd D ps.length ps,
    extract_trace_perm D (by omega) ps.length ps rfl⟩
  have hs := extract_trace_sorted D (by omega) ps.length ps rfl h
  exact List.pairwise_map.mpr hs

theorem claim_c2_extract_order_witness :
    ((extract_trace 2 2 [((2 : Int), (0 : Nat)), (1, 1)]).map Prod.fst).Sorted (· ≥ ·) ∧
    (extract_trace 2 2 [((2 : Int), (0 : Nat)), (1, 1)]).map Prod.snd =
      extract_list 2 2 [((2 : Int), (0 : Nat)), (1, 1)] ∧
    (extract_trace 2 2 [((2 : Int), (0 : Nat)), (1, 1)]).Perm
      [((2 : Int), (0 : Nat)), (1, 1)] :=
  claim_c2_extract_order 2 [((2 : Int), (0 : Nat)), (1, 1)] (by omega)
    ((validate_iff 2 (by omega) _).mp (by decide))

/-- Claim C3: `extract_max` (`top`) and `peek` on the empty queue fail (raise,
modelled as result `none`) and the failure has no side effect: the state
returned alongside the failure is exactly the input state. -/
theorem claim_c3_empty_queue_error (D : Nat) :
    top D ([] : List (Int × α)) = (none, []) ∧
    peek ([] : List (Int × α)) = none ∧
    peekSt ([] : List (Int × α)) = (none, []) :=
  ⟨rfl, rfl, rfl⟩

/-- Claim C5: whenever `_highest_priority_child_index` selects a swap target
`c` for node `i` (as `_push_down` does at every step), `c` is a child slot of
`i`, its priority is maximal among all of `i`'s up-to-D children, and among the
children attaining that maximal priority `c` is the left-most (least index) —
for every node, every branching factor D ≥ 2 and every heap state. -/
theorem claim_c5_leftmost_tie_break (D : Nat) (ps : List (Int × α)) (i c : Nat)
    (hD : 2 ≤ D) (hc : highest_priority_child_index ps D i = some c) :
    (first_child_index D i ≤ c ∧ c < min (first_child_index D i + D) ps.length) ∧
    (∀ k, first_child_index D i ≤ k →
      k < min (first_child_index D i + D) ps.length → prioAt ps k ≤ prioAt ps c) ∧
    (∀ k, first_child_index D i ≤ k →
      k < min (first_child_index D i + D) ps.length →
      prioAt ps k = prioAt ps c → c ≤ k) := by
  obtain ⟨h1, h2, h3, h4⟩ :=
    highest_priority_child_index_some_spec ps D i c (by omega) hc
  refine ⟨⟨h1, h2⟩, h3, ?_⟩
  intro k hk1 _ heq
  by_contra hlt
  push_neg at hlt
  have := h4 k hk1 hlt
  omega

theorem claim_c5_leftmost_tie_break_witness :
    (first_child_index 2 0 ≤ 1 ∧
      1 < min (first_child_index 2 0 + 2) ([((1 : Int), (0 : Nat)), (5, 1), (5, 2)]).length) ∧
    (∀ k, first_child_index 2 0 ≤ k →
      k < min (first_child_index 2 0 + 2) ([((1 : Int), (0 : Nat)), (5, 1), (5, 2)]).length →
      prioAt [((1 : Int), (0 : Nat)), (5, 1), (5, 2)] k ≤
        prioAt [((1 : Int), (0 : Nat)), (5, 1), (5, 2)] 1) ∧
    (∀ k, first_child_index 2 0 ≤ k →
      k < min (first_child_index 2 0 + 2) ([((1 : Int), (0 : Nat)), (5, 1), (5, 2)]).length →
      prioAt [((1 : Int), (0 : Nat)), (5, 1), (5, 2)] k =
        prioAt [((1 : Int), (0 : Nat)), (5, 1), (5, 2)] 1 → 1 ≤ k) :=
  claim_c5_leftmost_tie_break 2 [((1 : Int), (0 : Nat)), (5, 1), (5, 2)] 0 1
    (by omega) (by decide)

/-- Claim C6, counterexample: with tied priorities the two build strategies
extract different element sequences.  Elements 0,1,2,3 with priorities
1,1,2,2 and D = 2: bulk heapify extracts 3,2,1,0 while sequential inserts
extract 2,3,0,1. -/
theorem claim_c6_counterexample :
    ¬ (extract_list 2 4 (heapify 2 [0, 1, 2, 3] ([1, 1, 2, 2] : List Int)) =
       extract_list 2 4 (insert_seq 2 [0, 1, 2, 3] ([1, 1, 2, 2] : List Int))) := by
  decide

/-- Claim C6, amended: for every element/priority list pair of equal length n
and every branching factor D ≥ 2, the heap built by bulk `heapify` and the
heap built by n sequential `insert` calls from the empty heap always extract
the same priority sequence, and when the priorities are pairwise distinct the
two sequences of n `extract_max` results are equal element for element (with
tied priorities the element order may differ, as the counterexample shows). -/
theorem claim_c6_bulk_build_equiv (D : Nat) (hD : 2 ≤ D) (elements : List α)
    (priorities : List Int) (hlen : elements.length = priorities.length) :
    (extract_trace D priorities.length (heapify D elements priorities)).map
        Prod.fst =
      (extract_trace D priorities.length (insert_seq D elements priorities)).map
        Prod.fst ∧
    (priorities.Nodup →
      extract_list D priorities.length (heapify D elements priorities) =
        extract_list D priorities.length (insert_seq D elements priorities)) := by
  have hD1 : 1 ≤ D := by omega
  have hzlen : (priorities.zip elements).length = priorities.length := by
    rw [List.length_zip]
    omega
  have hp_perm := heapify_perm D hD1 elements priorities
  have hq_perm := insert_seq_perm D hD1 elements priorities
  have hperm : (heapify D elements priorities).Perm (insert_seq D elements priorities) :=
    hp_perm.trans hq_perm.symm
  have hplen : (heapify D elements priorities).length = priorities.length := by
    rw [hp_perm.length_eq, hzlen]
  have hqlen : (insert_seq D elements priorities).length = priorities.length := by
    rw [hq_perm.length_eq, hzlen]
  have hp_heap := heapify_isHeap D hD1 elements priorities
  have hq_heap := insert_seq_isHeap D hD1 elements priorities
  constructor
  · -- the priority sequences coincide even with ties: both traces are sorted
    -- non-increasingly and both enumerate the same priority multiset
    have hs1 : ((extract_trace D priorities.length
        (heapify D elements priorities)).map Prod.fst).Sorted (· ≥ ·) :=
      List.pairwise_map.mpr
        (extract_trace_sorted D hD1 priorities.length _ hplen hp_heap)
    have hs2 : ((extract_trace D priorities.length
        (insert_seq D elements priorities)).map Prod.fst).Sorted (· ≥ ·) :=
      List.pairwise_map.mpr
        (extract_trace_sorted D hD1 priorities.length _ hqlen hq_heap)
    have hpm : ((extract_trace D priorities.length
        (heapify D elements priorities)).map Prod.fst).Perm
        ((extract_trace D priorities.length
          (insert_seq D elements priorities)).map Prod.fst) := by
      have t1 := (extract_trace_perm D hD1 priorities.length _ hplen).map Prod.fst
      have t2 := (extract_trace_perm D hD1 priorities.length _ hqlen).map Prod.fst
      exact (t1.trans (hperm.map Prod.fst)).trans t2.symm
    haveI : IsAntisymm Int (· ≥ ·) := ⟨fun a b h1 h2 => le_antisymm h2 h1⟩
    exact List.eq_of_perm_of_sorted hpm hs1 hs2
  · intro hnd
    have hnd' : ((heapify D elements priorities).map Prod.fst).Nodup := by
      have h1 : ((priorities.zip elements).map Prod.fst) = priorities :=
        List.map_fst_zip priorities elements (by omega)
      refine ((hp_perm.map Prod.fst).nodup_iff).mpr ?_
      rw [h1]
      exact hnd
    have htr := extract_trace_eq_of_perm D hD1 priorities.length _ _ hplen hqlen
      hp_heap hq_heap hperm hnd'
    rw [← extract_trace_map_snd, ← extract_trace_map_snd, htr]

theorem claim_c6_bulk_build_equiv_witness :
    ((extract_trace 2 2 (heapify 2 [(0 : Nat), 1] ([2, 1] : List Int))).map
        Prod.fst =
      (extract_trace 2 2 (insert_seq 2 [(0 : Nat), 1] ([2, 1] : List Int))).map
        Prod.fst) ∧
    (([2, 1] : List Int).Nodup →
      extract_list 2 2 (heapify 2 [(0 : Nat), 1] ([2, 1] : List Int)) =
        extract_list 2 2 (insert_seq 2 [(0 : Nat), 1] ([2, 1] : List Int))) :=
  claim_c6_bulk_build_equiv 2 (by omega) [0, 1] [2, 1] rfl

/-- Claim C10: on every non-empty heap, `peek` returns exactly the element an
immediately following `extract_max` (`top`) returns, and `peek` leaves the
stored pairs unchanged (its state transition is the identity on the pair
list). -/
theorem claim_c10_peek_top_agree (D : Nat) (ps : List (Int × α)) (h : ps ≠ []) :
    peek ps = (top D ps).1 ∧ peekSt ps = (peek ps, ps) := by
  constructor
  · rw [top_fst D ps h]
    unfold peek
    rw [if_neg (by simpa using (List.length_pos.mpr h).ne')]
  · rfl

theorem claim_c10_peek_top_agree_witness :
    peek [((1 : Int), (0 : Nat))] = (top 2 [((1 : Int), (0 : Nat))]).1 ∧
    peekSt [((1 : Int), (0 : Nat))] = (peek [((1 : Int), (0 : Nat))], [((1 : Int), (0 : Nat))]) :=
  claim_c10_peek_top_agree 2 [((1 : Int), (0 : Nat))] (by simp)

end DHeap

/-! ## Claim theorems for the Huffman encoder: degenerate and fixed cases -/

namespace Huffman

/-- Claim C4: Huffman construction from an empty frequency table (empty symbol
stream) fails — the failure surfaces inside `_frequency_table_to_heap` before
any node or heap is allocated, so the whole pipeline returns the error and no
heap: `frequency_table_to_heap` is `none` and so is `create_encoding`. -/
theorem claim_c4_empty_input_error (D : Nat) :
    create_frequency_table [] = [] ∧
    frequency_table_to_heap [] D = none ∧
    create_encoding [] D = none :=
  ⟨rfl, rfl, rfl⟩

/-- Claim C9: a frequency table with exactly one entry (x, n), n > 0, produces
the code table mapping x to the empty bit path: the single leaf is the root
and its path is empty. -/
theorem claim_c9_single_symbol (x : Char) (n : Int) (D : Nat) (hn : 0 < n)
    (hD : 2 ≤ D) : encode_table [(x, n)] D = some [(x, [])] := by
  simp [encode_table, frequency_table_to_heap, DHeap.heapify,
    DHeap.first_leaf_index, heap_to_tree, heap_to_tree_loop, DHeap.top,
    HuffmanNode.tree_encoding, dictSet]

theorem claim_c9_single_symbol_witness :
    encode_table [('q', (3 : Int))] 2 = some [('q', [])] :=
  claim_c9_single_symbol 'q' 3 2 (by omega) (by omega)

/-- Claim C8: the fixed frequency table a:57, b:22, c:7, d:6, e:5, f:3 with
branching factor 2 produces exactly the code table a↦0, b↦10, c↦1100, d↦1101,
e↦1110, f↦1111, and for every branching factor D in 2..6 the per-symbol code
lengths are a:1, b:2, c:4, d:4, e:4, f:4. -/
theorem claim_c8_fixed_example :
    encode_table exampleFT 2 =
      some [('a', ['0']), ('b', ['1', '0']), ('c', ['1', '1', '0', '0']),
        ('d', ['1', '1', '0', '1']), ('e', ['1', '1', '1', '0']),
        ('f', ['1', '1', '1', '1'])] ∧
    (([2, 3, 4, 5, 6] : List Nat).all (fun D =>
      ((encode_table exampleFT D).map (fun tbl =>
        tbl.map (fun kv => (kv.1, kv.2.length)))) =
        some [('a', 1), ('b', 2), ('c', 4), ('d', 4), ('e', 4), ('f', 4)])) = true := by
  constructor
  · rfl
  · rfl

end Huffman

/-! ## Structure of the code tables produced from well-formed trees -/

namespace Huffman

lemma HuffmanNode.symbols_mk (s : List Char) (p : Int)
    (l r : Option HuffmanNode) : (HuffmanNode.mk s p l r).symbols = s := rfl

lemma HuffmanNode.priority_mk (s : List Char) (p : Int)
    (l r : Option HuffmanNode) : (HuffmanNode.mk s p l r).priority = p := rfl

lemma WF.symbols_ne_nil {t : HuffmanNode} (h : WF t) : t.symbols ≠ [] := by
  induction h with
  | leaf c p =>
    rw [HuffmanNode.symbols_mk]
    simp
  | node l r p hl hr ihl ihr =>
    rw [HuffmanNode.symbols_mk]
    intro hcon
    rw [List.append_eq_nil] at hcon
    exact ihl hcon.1

lemma dictSet_of_fresh (tbl : List (Char × List Char)) (k : Char)
    (v : List Char) (h : ∀ kv ∈ tbl, kv.1 ≠ k) :
    dictSet tbl k v = tbl ++ [(k, v)] := by
  unfold dictSet
  rw [if_neg]
  intro hcon
  rw [List.any_eq_true] at hcon
  obtain ⟨kv, hkv, hbeq⟩ := hcon
  exact h kv hkv (by simpa using hbeq)

lemma fold_dictSet_append (f : List Char → List Char) :
    ∀ (src acc : List (Char × List Char)),
      (src.map Prod.fst).Nodup →
      (∀ k ∈ src.map Prod.fst, k ∉ acc.map Prod.fst) →
      src.foldl (fun a kv => dictSet a kv.1 (f kv.2)) acc =
        acc ++ src.map (fun kv => (kv.1, f kv.2)) := by
  intro src
  induction src with
  | nil =>
    intro acc _ _
    simp
  | cons kv src ih =>
    intro acc hnd hdis
    have hfresh : ∀ kv' ∈ acc, kv'.1 ≠ kv.1 := by
      intro kv' hkv' hcon
      exact hdis kv.1 (by simp) (hcon ▸ List.mem_map_of_mem Prod.fst hkv')
    simp only [List.foldl_cons]
    rw [dictSet_of_fresh acc kv.1 (f kv.2) hfresh]
    rw [ih (acc ++ [(kv.1, f kv.2)]) (by simpa using hnd.of_cons) ?_]
    · simp
    · intro k hk
      simp only [List.map_append, List.mem_append] at *
      rintro (hmem | hmem)
      · exact hdis k (by simp [hk]) hmem
      · simp only [List.map_cons, List.map_nil, List.mem_singleton] at hmem
        rw [List.map_cons, List.nodup_cons] at hnd
        exact hnd.1 (hmem ▸ hk)

lemma tree_encoding_leaf (c : Char) (p : Int) :
    (HuffmanNode.mk [c] p none none).tree_encoding = [(c, [])] := rfl

lemma tree_encoding_node (syms : List Char) (p : Int) (l r : HuffmanNode) :
    (HuffmanNode.mk syms p (some l) (some r)).tree_encoding =
      (if syms.length = 1 then
        dictSet (r.tree_encoding.foldl
          (fun acc kv => dictSet acc kv.1 (encode_right_path kv.2))
          (l.tree_encoding.foldl
            (fun acc kv => dictSet acc kv.1 (encode_left_path kv.2)) []))
          (syms.getD 0 default) []
      else
        r.tree_encoding.foldl
          (fun acc kv => dictSet acc kv.1 (encode_right_path kv.2))
          (l.tree_encoding.foldl
            (fun acc kv => dictSet acc kv.1 (encode_left_path kv.2)) [])) := rfl

/-- On a well-formed tree with globally distinct symbols, the code table keys
are exactly the covered symbols in order, and the table is prefix-free. -/
lemma tree_encoding_spec (t : HuffmanNode) (hwf : WF t) :
    t.symbols.Nodup →
      t.tree_encoding.map Prod.fst = t.symbols ∧ PrefixFreeTable t.tree_encoding := by
  induction hwf with
  | leaf c p =>
    intro _
    rw [tree_encoding_leaf]
    refine ⟨by rw [HuffmanNode.symbols_mk]; simp, ?_⟩
    intro kv1 h1 kv2 h2 hne
    rw [List.mem_singleton] at h1 h2
    rw [h1, h2] at hne
    exact absurd rfl hne
  | node l r p hl hr ihl ihr =>
    intro hnd
    simp only [HuffmanNode.symbols_mk] at hnd
    have hndl : l.symbols.Nodup := hnd.of_append_left
    have hndr : r.symbols.Nodup := hnd.of_append_right
    have hdis : l.symbols.Disjoint r.symbols :=
      (List.nodup_append.mp hnd).2.2
    obtain ⟨hkl, hpfl⟩ := ihl hndl
    obtain ⟨hkr, hpfr⟩ := ihr hndr
    have hlen2 : ¬ (l.symbols ++ r.symbols).length = 1 := by
      have h1 := hl.symbols_ne_nil
      have h2 := hr.symbols_ne_nil
      rw [List.length_append]
      have := List.length_pos.mpr h1
      have := List.length_pos.mpr h2
      omega
    have ht1 : l.tree_encoding.foldl
        (fun acc kv => dictSet acc kv.1 (encode_left_path kv.2)) [] =
        l.tree_encoding.map (fun kv => (kv.1, encode_left_path kv.2)) := by
      rw [fold_dictSet_append (encode_left_path) l.tree_encoding []
        (by rw [hkl]; exact hndl) (by simp)]
      simp
    have hkeysmap : ∀ (src : List (Char × List Char)) (g : List Char → List Char),
        (src.map (fun kv => (kv.1, g kv.2))).map Prod.fst = src.map Prod.fst := by
      intro src g
      rw [List.map_map]
      rfl
    have ht2 : r.tree_encoding.foldl
        (fun acc kv => dictSet acc kv.1 (encode_right_path kv.2))
        (l.tree_encoding.map (fun kv => (kv.1, encode_left_path kv.2))) =
        l.tree_encoding.map (fun kv => (kv.1, encode_left_path kv.2)) ++
          r.tree_encoding.map (fun kv => (kv.1, encode_right_path kv.2)) := by
      rw [fold_dictSet_append (encode_right_path) r.tree_encoding _
        (by rw [hkr]; exact hndr) ?_]
      intro k hk
      rw [hkeysmap, hkl]
      rw [hkr] at hk
      exact fun hmem => hdis hmem hk
    have henc : (HuffmanNode.mk (l.symbols ++ r.symbols) p (some l)
        (some r)).tree_encoding =
        l.tree_encoding.map (fun kv => (kv.1, encode_left_path kv.2)) ++
          r.tree_encoding.map (fun kv => (kv.1, encode_right_path kv.2)) := by
      rw [tree_encoding_node, if_neg hlen2, ht1, ht2]
    rw [henc]
    constructor
    · simp only [HuffmanNode.symbols_mk]
      rw [List.map_append, hkeysmap, hkeysmap, hkl, hkr]
    · intro kv1 h1 kv2 h2 hne
      rw [List.mem_append] at h1 h2
      rcases h1 with h1 | h1 <;> rcases h2 with h2 | h2
      · obtain ⟨kv1', hm1, rfl⟩ := List.mem_map.mp h1
        obtain ⟨kv2', hm2, rfl⟩ := List.mem_map.mp h2
        intro hcon
        unfold encode_left_path at hcon
        obtain ⟨-, hcon⟩ := List.cons_prefix_cons.mp hcon
        exact hpfl kv1' hm1 kv2' hm2 (by simpa using hne) hcon
      · obtain ⟨kv1', hm1, rfl⟩ := List.mem_map.mp h1
        obtain ⟨kv2', hm2, rfl⟩ := List.mem_map.mp h2
        intro hcon
        unfold encode_left_path encode_right_path at hcon
        obtain ⟨hcon, -⟩ := List.cons_prefix_cons.mp hcon
        simp at hcon
      · obtain ⟨kv1', hm1, rfl⟩ := List.mem_map.mp h1
        obtain ⟨kv2', hm2, rfl⟩ := List.mem_map.mp h2
        intro hcon
        unfold encode_left_path encode_right_path at hcon
        obtain ⟨hcon, -⟩ := List.cons_prefix_cons.mp hcon
        simp at hcon
      · obtain ⟨kv1', hm1, rfl⟩ := List.mem_map.mp h1
        obtain ⟨kv2', hm2, rfl⟩ := List.mem_map.mp h2
        intro hcon
        unfold encode_right_path at hcon
        obtain ⟨-, hcon⟩ := List.cons_prefix_cons.mp hcon
        exact hpfr kv1' hm1 kv2' hm2 (by simpa using hne) hcon

/-! ## The merge loop keeps the heap well formed -/

lemma flatten_nodup_of_mem {β : Type} :
    ∀ (L : List (List β)), L.flatten.Nodup → ∀ x ∈ L, x.Nodup := by
  intro L
  induction L with
  | nil =>
    intro _ x hx
    simp at hx
  | cons a L ih =>
    intro h x hx
    rw [show (a :: L).flatten = a ++ L.flatten from rfl] at h
    rcases List.mem_cons.mp hx with hx | hx
    · rw [hx]
      exact h.of_append_left
    · exact ih h.of_append_right x hx

lemma goodHeap_perm (ps qs : List (Int × HuffmanNode)) (hperm : ps.Perm qs)
    (h : GoodHeap ps) : GoodHeap qs := by
  obtain ⟨hwf, hnd⟩ := h
  refine ⟨fun pr hpr => hwf pr (hperm.mem_iff.mpr hpr), ?_⟩
  have hmap : (ps.map fun pr => pr.2.symbols).Perm
      (qs.map fun pr => pr.2.symbols) := hperm.map _
  exact hmap.flatten.nodup_iff.mp hnd

open DHeap in
lemma heap_to_tree_loop_good (D : Nat) (hD : 1 ≤ D) :
    ∀ (fuel : Nat) (ps : List (Int × HuffmanNode)), GoodHeap ps →
      GoodHeap (heap_to_tree_loop D fuel ps) := by
  intro fuel
  induction fuel with
  | zero =>
    intro ps h
    exact h
  | succ fuel ih =>
    intro ps h
    by_cases hlen : 1 < ps.length
    · have hne1 : ps ≠ [] := by
        intro hcon
        rw [hcon] at hlen
        simp at hlen
      have hlen1 : (top D ps).2.length = ps.length - 1 :=
        top_length D hD ps hne1
      have hne2 : (top D ps).2 ≠ [] := by
        intro hcon
        rw [hcon] at hlen1
        simp at hlen1
        omega
      have htop1 : (top D ps).1 = some ((ps.getD 0 default).2) :=
        top_fst D ps hne1
      have htop2 : (top D (top D ps).2).1 =
          some (((top D ps).2.getD 0 default).2) :=
        top_fst D (top D ps).2 hne2
      have hstep : heap_to_tree_loop D (fuel + 1) ps =
          heap_to_tree_loop D fuel (insert D (top D (top D ps).2).2
            (HuffmanNode.mk
              (((top D (top D ps).2).1.getD default).symbols ++
                ((top D ps).1.getD default).symbols)
              (((top D (top D ps).2).1.getD default).priority +
                ((top D ps).1.getD default).priority)
              (some ((top D (top D ps).2).1.getD default))
              (some ((top D ps).1.getD default)))
            (((top D (top D ps).2).1.getD default).priority +
              ((top D ps).1.getD default).priority)) := by
        simp only [heap_to_tree_loop, if_pos hlen]
      rw [htop1, htop2] at hstep
      simp only [Option.getD_some] at hstep
      rw [hstep]
      apply ih
      -- the two extracted nodes and the rest, all still globally well formed
      have hgood3 : GoodHeap (ps.getD 0 default ::
          (top D ps).2.getD 0 default :: (top D (top D ps).2).2) := by
        apply goodHeap_perm ps _ ?_ h
        have p1 := (top_perm D hD ps hne1).symm
        have p2 := ((top_perm D hD (top D ps).2 hne2).symm).cons
          (ps.getD 0 default)
        exact p1.trans p2
      have hwf_r : WF (ps.getD 0 default).2 :=
        hgood3.1 _ (List.mem_cons_self _ _)
      have hwf_l : WF ((top D ps).2.getD 0 default).2 :=
        hgood3.1 _ (List.mem_cons_of_mem _ (List.mem_cons_self _ _))
      apply goodHeap_perm
        ((((top D ps).2.getD 0 default).2.priority + (ps.getD 0 default).2.priority,
          HuffmanNode.mk
            (((top D ps).2.getD 0 default).2.symbols ++ (ps.getD 0 default).2.symbols)
            (((top D ps).2.getD 0 default).2.priority + (ps.getD 0 default).2.priority)
            (some ((top D ps).2.getD 0 default).2) (some (ps.getD 0 default).2)) ::
          (top D (top D ps).2).2)
        _ (insert_perm D hD _ _ _).symm
      constructor
      · intro pr hpr
        rcases List.mem_cons.mp hpr with hpr | hpr
        · rw [hpr]
          exact WF.node _ _ _ hwf_l hwf_r
        · exact hgood3.1 pr (List.mem_cons_of_mem _ (List.mem_cons_of_mem _ hpr))
      · have hflat3 := hgood3.2
        simp only [List.map_cons] at hflat3
        rw [show ∀ (a b : List Char) (L : List (List Char)),
            (a :: b :: L).flatten = a ++ (b ++ L.flatten) from fun a b L => rfl]
          at hflat3
        simp only [List.map_cons, HuffmanNode.symbols_mk]
        rw [show ∀ (a : List Char) (L : List (List Char)),
            (a :: L).flatten = a ++ L.flatten from fun a L => rfl]
        have hperm2 : ((ps.getD 0 default).2.symbols ++
            (((top D ps).2.getD 0 default).2.symbols ++
              ((top D (top D ps).2).2.map fun pr => pr.2.symbols).flatten)).Perm
            ((((top D ps).2.getD 0 default).2.symbols ++
              (ps.getD 0 default).2.symbols) ++
              ((top D (top D ps).2).2.map fun pr => pr.2.symbols).flatten) := by
          rw [← List.append_assoc]
          exact (List.perm_append_comm).append_right _
        exact hperm2.nodup_iff.mp hflat3
    · have hstep : heap_to_tree_loop D (fuel + 1) ps = ps := by
        simp only [heap_to_tree_loop, if_neg hlen]
      rw [hstep]
      exact h

open DHeap in
lemma heap_to_tree_good (D : Nat) (hD : 1 ≤ D) (ps : List (Int × HuffmanNode))
    (h : GoodHeap ps) (t : HuffmanNode) (ht : heap_to_tree D ps = some t) :
    WF t ∧ t.symbols.Nodup := by
  unfold heap_to_tree at ht
  have hgood : GoodHeap (heap_to_tree_loop D ps.length ps) :=
    heap_to_tree_loop_good D hD ps.length ps h
  have hne : heap_to_tree_loop D ps.length ps ≠ [] := by
    intro hcon
    rw [hcon] at ht
    rw [top_empty D [] rfl] at ht
    cases ht
  rw [top_fst D _ hne] at ht
  have hteq : t = ((heap_to_tree_loop D ps.length ps).getD 0 default).2 := by
    injection ht with h'
    rw [h']
  have hmem : (heap_to_tree_loop D ps.length ps).getD 0 default ∈
      heap_to_tree_loop D ps.length ps := by
    rw [List.getD_eq_getElem _ default (List.length_pos.mpr hne)]
    exact List.getElem_mem _
  rw [hteq]
  refine ⟨hgood.1 _ hmem, ?_⟩
  exact flatten_nodup_of_mem _ hgood.2 _
    (List.mem_map_of_mem (fun pr => pr.2.symbols) hmem)

lemma flatten_singletons {β γ : Type} (f : β → γ) :
    ∀ (L : List β), (L.map (fun x => [f x])).flatten = L.map f := by
  intro L
  induction L with
  | nil => rfl
  | cons a L ih => simp [ih]

open DHeap in
lemma frequency_table_to_heap_good (D : Nat) (hD : 1 ≤ D)
    (ft : List (Char × Int)) (hnd : (ft.map Prod.fst).Nodup)
    (hp : List (Int × HuffmanNode))
    (h : frequency_table_to_heap ft D = some hp) : GoodHeap hp := by
  unfold frequency_table_to_heap at h
  by_cases hft : ft.isEmpty
  · rw [if_pos hft] at h
    cases h
  · rw [if_neg hft] at h
    injection h with h'
    rw [← h']
    apply goodHeap_perm _ _ (heapify_perm D hD _ _).symm
    rw [List.zip_map']
    constructor
    · intro pr hpr
      rw [List.mem_map] at hpr
      obtain ⟨kv, _, hkv⟩ := hpr
      rw [← hkv]
      exact WF.leaf kv.1 (-kv.2)
    · rw [List.map_map]
      have hcomp : ((fun pr : Int × HuffmanNode => pr.2.symbols) ∘
          fun kv : Char × Int => (-kv.2, HuffmanNode.mk [kv.1] (-kv.2) none none)) =
          fun kv : Char × Int => [kv.1] := by
        funext kv
        rfl
      rw [hcomp, flatten_singletons (fun kv : Char × Int => kv.1)]
      exact hnd

lemma counterAdd_keys_nodup (acc : List (Char × Int)) (c : Char)
    (h : (acc.map Prod.fst).Nodup) : ((counterAdd acc c).map Prod.fst).Nodup := by
  unfold counterAdd
  by_cases hany : acc.any (fun kv => kv.1 == c) = true
  · rw [if_pos hany]
    have hmap : (acc.map (fun kv => if kv.1 == c then (kv.1, kv.2 + 1) else kv)).map
        Prod.fst = acc.map Prod.fst := by
      rw [List.map_map]
      apply List.map_congr_left
      intro kv _
      by_cases hkv : kv.1 = c <;> simp [hkv]
    rw [hmap]
    exact h
  · rw [if_neg hany]
    have hnotin : c ∉ acc.map Prod.fst := by
      intro hcon
      rw [List.mem_map] at hcon
      obtain ⟨kv, hkv, hfst⟩ := hcon
      exact hany (List.any_eq_true.mpr ⟨kv, hkv, by simp [hfst]⟩)
    have hperm := List.perm_append_singleton c (acc.map Prod.fst)
    have : (acc.map Prod.fst ++ [c]).Nodup :=
      hperm.nodup_iff.mpr (List.nodup_cons.mpr ⟨hnotin, h⟩)
    simpa using this

lemma create_frequency_table_keys_nodup (text : List Char) :
    ((create_frequency_table text).map Prod.fst).Nodup := by
  unfold create_frequency_table
  suffices h : ∀ (l : List Char) (acc : List (Char × Int)),
      (acc.map Prod.fst).Nodup → ((l.foldl counterAdd acc).map Prod.fst).Nodup by
    exact h text [] (by simp)
  intro l
  induction l with
  | nil =>
    intro acc h
    exact h
  | cons c l ih =>
    intro acc h
    exact ih _ (counterAdd_keys_nodup acc c h)

/-- Claim C7: every code table the encoder produces is prefix-free — for all
distinct symbols x ≠ y in the table, neither bit path is a prefix of the
other. -/
theorem claim_c7_prefix_free (text : List Char) (D : Nat) (hD : 2 ≤ D)
    (tbl : List (Char × List Char)) (h : create_encoding text D = some tbl) :
    PrefixFreeTable tbl := by
  unfold create_encoding at h
  cases hft : frequency_table_to_heap (create_frequency_table text) D with
  | none =>
    rw [hft] at h
    cases h
  | some hp =>
    rw [hft] at h
    have h2 : Option.map HuffmanNode.tree_encoding (heap_to_tree D hp) =
        some tbl := h
    cases htree : heap_to_tree D hp with
    | none =>
      rw [htree] at h2
      cases h2
    | some t =>
      rw [htree] at h2
      have htbl : tbl = t.tree_encoding := by
        rw [Option.map_some'] at h2
        injection h2 with h'
        rw [h']
      have hgood := frequency_table_to_heap_good D (by omega) _
        (create_frequency_table_keys_nodup text) hp hft
      obtain ⟨hwf, hnd⟩ := heap_to_tree_good D (by omega) hp hgood t htree
      obtain ⟨-, hpf⟩ := tree_encoding_spec t hwf hnd
      rw [htbl]
      exact hpf

theorem claim_c7_prefix_free_witness :
    ¬ (['0'] : List Char) <+: ['1'] :=
  claim_c7_prefix_free ['a', 'b'] 2 (by omega)
    [('b', ['0']), ('a', ['1'])] rfl
    ('b', ['0']) (by decide) ('a', ['1']) (by decide) (by decide)

end Huffman

